import Mathlib

/-!
# Airfoil optimisation: Pareto front, optimal configuration, geometry formatting

Shallow embedding of `Source/build_pareto_front.cpp`, `Source/find_optimal_config.cpp`
and `Source/format_airfoil.cpp`.

Modelling conventions.

* A C++ `double` is modelled by a rational number `ℚ`: every finite double is a
  rational and `<`, `>`, `==` on finite doubles agree with the order of `ℚ`.
  NaN and the infinities are outside the model.  The array `efficiency` holds
  `cL / cD` (`store_sim_results.h`); on a row with `cL == 0` and `cD == 0` that
  quotient is NaN, which fails every comparison.  Where this matters it appears
  as the hypothesis that such a row never passes the test of line 49.
* A `std::vector<double>` is a `List ℚ`; `v[i]` is `v.getD i 0`.  Reading a
  vector out of bounds is undefined in the source, so statements about the
  parallel sweep arrays assume that they have equal length, which keeps every
  read in bounds.
* `size_t` cursors are natural numbers; they never exceed the vector length, so
  no wrap-around can occur.
* The globals `alpha`, `cL`, `cD`, `efficiency`, `paretoFront` are explicit
  parameters; functions that `exit(1)` return an `Except`.
* The `while` loop of `buildParetoFront` is run with an explicit iteration
  budget and yields `none` if the budget runs out; `paretoLoop_eq_trace` and
  `buildParetoFront_eq` show that the budget used by `buildParetoFront` is
  always enough, so the function is total.
-/

namespace Airfoil

/-! ## `build_pareto_front.cpp` -/

/-- Test of line 40: `cL[i] == 0.0 && cD[i] == 0.0`. -/
def isInvalid (cL cD : List ℚ) (i : Nat) : Bool :=
  decide (cL.getD i 0 = 0) && decide (cD.getD i 0 = 0)

/-- Test of line 49: `cL[j] > cL[i] && efficiency[j] > efficiency[i]`. -/
def dominates (cL efficiency : List ℚ) (i j : Nat) : Bool :=
  decide (cL.getD j 0 > cL.getD i 0) && decide (efficiency.getD j 0 > efficiency.getD i 0)

/-- The inner `for` loop of lines 46-54: the first `j` with `i + 1 ≤ j < cL.size()`
that passes the test of line 49 (where the loop breaks), or `none` when the loop
runs to the end. -/
def firstDominator (cL efficiency : List ℚ) (i : Nat) : Option Nat :=
  (List.range' (i + 1) (cL.length - (i + 1))).find? (fun j => dominates cL efficiency i j)

/-- The pair pushed at line 58. -/
def pointAt (cL efficiency : List ℚ) (i : Nat) : ℚ × ℚ :=
  (cL.getD i 0, efficiency.getD i 0)

/-- The `while (i < cL.size())` loop of lines 36-61, with cursor `i` and the
front built so far.  The first argument bounds the number of iterations. -/
def paretoLoop (cL cD efficiency : List ℚ) : Nat → Nat → List (ℚ × ℚ) → Option (List (ℚ × ℚ))
  | 0, _, _ => none
  | fuel + 1, i, front =>
    if i < cL.length then
      if isInvalid cL cD i then
        paretoLoop cL cD efficiency fuel (i + 1) front
      else
        match firstDominator cL efficiency i with
        | some j => paretoLoop cL cD efficiency fuel j front
        | none => paretoLoop cL cD efficiency fuel (i + 1) (front ++ [pointAt cL efficiency i])
    else
      some front

/-- Method `std::vector::clear`: whatever the vector held, it is empty afterwards. -/
def clear (_ : List (ℚ × ℚ)) : List (ℚ × ℚ) := []

/-- Function `buildParetoFront(alpha, cL, cD)`: `paretoFront` is the content of the global
front before the call (cleared at line 30), `efficiency` the global array read at
lines 49 and 58.  The result is the global front after the call. -/
def buildParetoFront (paretoFront : List (ℚ × ℚ)) (alpha cL cD efficiency : List ℚ) :
    Option (List (ℚ × ℚ)) :=
  let _ := alpha
  paretoLoop cL cD efficiency (cL.length + 1) 0 (clear paretoFront)

/-- Ghost trace of `paretoLoop`: the successive values of the cursor `i` at which
the loop body is entered. -/
def cursorTrace (cL cD efficiency : List ℚ) : Nat → Nat → List Nat
  | 0, _ => []
  | fuel + 1, i =>
    if i < cL.length then
      i :: (if isInvalid cL cD i then
              cursorTrace cL cD efficiency fuel (i + 1)
            else
              match firstDominator cL efficiency i with
              | some j => cursorTrace cL cD efficiency fuel j
              | none => cursorTrace cL cD efficiency fuel (i + 1))
    else
      []

/-- Cursor positions visited by a run of `buildParetoFront`. -/
def visited (cL cD efficiency : List ℚ) : List Nat :=
  cursorTrace cL cD efficiency (cL.length + 1) 0

/-- Condition under which the loop body reaches line 58 at cursor `i`. -/
def emitsAt (cL cD efficiency : List ℚ) (i : Nat) : Bool :=
  !isInvalid cL cD i && (firstDominator cL efficiency i).isNone

/-- Indices whose record is pushed into the front, in push order. -/
def emitted (cL cD efficiency : List ℚ) : List Nat :=
  (visited cL cD efficiency).filter (emitsAt cL cD efficiency)

/-! ## `find_optimal_config.cpp` -/

/-- The two ways in which `findOptimalConfig` terminates the program with `exit(1)`:
`EmptyFront` is the exit of lines 39-42 (`paretoFront.empty()`), `NoMatch` the
exit of lines 70-72 (the lookup loop found no matching index). -/
inductive SelectionError where
  | EmptyFront
  | NoMatch
deriving DecidableEq, Repr

/-- The four globals written by `findOptimalConfig` on success (lines 61-64). -/
structure OptimalConfig where
  alphaOptimal : ℚ
  cLOptimal : ℚ
  cDOptimal : ℚ
  efficiencyOptimal : ℚ
deriving DecidableEq, Repr

/-- Test of line 60: `cL[i] == optimalPoint.first && efficiency[i] == optimalPoint.second`. -/
def matchesAt (cL efficiency : List ℚ) (optimalPoint : ℚ × ℚ) (i : Nat) : Bool :=
  decide (cL.getD i 0 = optimalPoint.1) && decide (efficiency.getD i 0 = optimalPoint.2)

/-- Function `findOptimalConfig()`, reading the globals `paretoFront`, `alpha`, `cL`, `cD`
and `efficiency`.  The lookup loop of lines 59-68 runs `i` over `0 .. alpha.size() - 1`
and returns at the first index that passes the test of line 60. -/
def findOptimalConfig (paretoFront : List (ℚ × ℚ)) (alpha cL cD efficiency : List ℚ) :
    Except SelectionError OptimalConfig :=
  match paretoFront with
  | [] => .error .EmptyFront
  | optimalPoint :: _ =>
    match (List.range alpha.length).find? (matchesAt cL efficiency optimalPoint) with
    | some i =>
      .ok { alphaOptimal := alpha.getD i 0
            cDOptimal := cD.getD i 0
            cLOptimal := optimalPoint.1
            efficiencyOptimal := optimalPoint.2 }
    | none => .error .NoMatch

/-! ## `format_airfoil.cpp` -/

/-- The `struct Point` of `format_airfoil.h`. -/
structure Point where
  x : ℚ
  y : ℚ
deriving DecidableEq, Repr

/-- Method `Point::operator<`: comparison of the x-coordinates only. -/
def Point.lt (a b : Point) : Bool := decide (a.x < b.x)

/-- Method `Point::operator!=`. -/
def Point.ne (a b : Point) : Bool := decide (a.x ≠ b.x) || decide (a.y ≠ b.y)

/-- Insertion into a `std::set<Point>`, kept as the list of its elements in
iteration order (increasing for `Point::operator<`).  As in the standard
container, an element equivalent to the new one (neither is less than the
other) blocks the insertion. -/
def setInsert (p : Point) : List Point → List Point
  | [] => [p]
  | q :: s =>
    if p.lt q then p :: q :: s
    else if q.lt p then q :: setInsert p s
    else q :: s

/-- First component of `std::minmax_element` with the comparator of lines 94-96,
scanning the points after `best`: the first element of smallest x. -/
def minElementFrom (best : Point) : List Point → Point
  | [] => best
  | p :: ps => minElementFrom (if p.x < best.x then p else best) ps

/-- Second component of `std::minmax_element`: the last element of largest x. -/
def maxElementFrom (best : Point) : List Point → Point
  | [] => best
  | p :: ps => maxElementFrom (if p.x < best.x then best else p) ps

/-- State of the classification loop of lines 111-128. -/
structure Surfaces where
  isLowerSurface : Bool
  uniqueUpper : List Point
  lowerPart : List Point
deriving DecidableEq, Repr

/-- One iteration (index `i`) of the classification loop, lines 114-127. -/
def classifyStep (points : List Point) (leadingEdge : Point) (st : Surfaces) (i : Nat) :
    Surfaces :=
  let origin : Point := ⟨0, 0⟩
  let isLowerSurface :=
    if decide (i > 0) && decide ((points.getD i origin).x < (points.getD (i - 1) origin).x)
        && !st.isLowerSurface then true
    else st.isLowerSurface
  if isLowerSurface then
    { isLowerSurface := isLowerSurface
      uniqueUpper := st.uniqueUpper
      lowerPart := st.lowerPart ++ [points.getD i origin] }
  else
    { isLowerSurface := isLowerSurface
      uniqueUpper :=
        if (points.getD i origin).ne leadingEdge then setInsert (points.getD i origin) st.uniqueUpper
        else st.uniqueUpper
      lowerPart := st.lowerPart }

/-- The only error of `processAirfoilPoints`: the `exit(1)` of lines 87-90. -/
inductive GeometryError where
  | TooFewPoints
deriving DecidableEq, Repr

/-- Function `processAirfoilPoints(points)`. -/
def processAirfoilPoints (points : List Point) : Except GeometryError (List Point) :=
  if points.length < 10 then
    .error .TooFewPoints
  else
    let origin : Point := ⟨0, 0⟩
    let leadingEdge := minElementFrom (points.getD 0 origin) (points.drop 1)
    let _trailingEdge := maxElementFrom (points.getD 0 origin) (points.drop 1)
    let needsReversing := decide ((points.getD 1 origin).x > (points.getD 0 origin).x)
    let st := (List.range points.length).foldl (classifyStep points leadingEdge)
      { isLowerSurface := false, uniqueUpper := [], lowerPart := [] }
    let upperPart := if needsReversing then st.uniqueUpper.reverse else st.uniqueUpper
    .ok (upperPart ++ st.lowerPart)

/-- Function `readCoordinatesFromFile`, lines 53-64, on the lines that follow the first
line of the file.  A line is given by the outcome of the extraction
`iss >> x >> y` of line 58: `some (x, y)` when two numbers were read, `none`
otherwise.  The result is the vector `points`; the first line, handed back
through `firstLine`, plays no role in it. -/
def readCoordinatesFromFile (lines : List (Option (ℚ × ℚ))) : List Point :=
  lines.foldl
    (fun points line =>
      match line with
      | some (x, y) => if x ≤ 1 ∧ y ≤ 1 then points ++ [⟨x, y⟩] else points
      | none => points)
    []

/-! ### Vocabulary for the statements about `processAirfoilPoints` -/

/-- The value of `leadingEdge` (line 97) for the input `points`. -/
def leadingEdge (points : List Point) : Point :=
  minElementFrom (points.getD 0 ⟨0, 0⟩) (points.drop 1)

/-- The value of `needsReversing` (line 101) for the input `points`. -/
def needsReversing (points : List Point) : Bool :=
  decide ((points.getD 1 ⟨0, 0⟩).x > (points.getD 0 ⟨0, 0⟩).x)

/-- The smallest index `s ≥ 1` with `points[s].x < points[s-1].x`, if there is one. -/
def firstDecrease (points : List Point) : Option Nat :=
  (List.range' 1 (points.length - 1)).find?
    (fun i => decide ((points.getD i ⟨0, 0⟩).x < (points.getD (i - 1) ⟨0, 0⟩).x))

/-- The index at which the lower surface starts: `firstDecrease`, or the length of
the input when x never decreases. -/
def switchIndex (points : List Point) : Nat :=
  (firstDecrease points).getD points.length

/-- Content of the set `uniqueUpper` once the points `ps` have gone, in order,
through the branch of lines 122-127. -/
def upperSet (leadingEdge : Point) (ps : List Point) : List Point :=
  ps.foldl (fun s p => if p.ne leadingEdge then setInsert p s else s) []

/-- The upper partition of the input: the points before `switchIndex`. -/
def upperPartition (points : List Point) : List Point :=
  points.take (switchIndex points)

/-- The upper segment of the output: the vector `upperPart` as it stands after
lines 131-139, before the lower part is appended. -/
def upperSegment (points : List Point) : List Point :=
  if needsReversing points then (upperSet (leadingEdge points) (upperPartition points)).reverse
  else upperSet (leadingEdge points) (upperPartition points)

/-- One point per x-coordinate: every point of the list that is not preceded by a
point of the same x, in the order of the list. -/
def keepFirstByX : List Point → List Point
  | [] => []
  | p :: ps => p :: (keepFirstByX ps).filter (fun q => decide (q.x ≠ p.x))

/-! ### Sample inputs -/

/-- An upper surface listed from the leading edge `(0, 0)` to the trailing edge,
followed by the lower surface listed the same way (12 points, 6 and 6). -/
def twoSurfaces : List Point :=
  [⟨0, 0⟩, ⟨2, 1⟩, ⟨4, 2⟩, ⟨6, 2⟩, ⟨8, 1⟩, ⟨10, 0⟩,
   ⟨0, 0⟩, ⟨2, -1⟩, ⟨4, -2⟩, ⟨6, -2⟩, ⟨8, -1⟩, ⟨10, 0⟩]

/-- As `twoSurfaces`, with a second upper-surface point `(2, 2)` above `(2, 1)`. -/
def twoSurfacesStep : List Point :=
  [⟨0, 0⟩, ⟨2, 1⟩, ⟨2, 2⟩, ⟨4, 2⟩, ⟨6, 2⟩, ⟨8, 1⟩, ⟨10, 0⟩,
   ⟨0, 0⟩, ⟨2, -1⟩, ⟨4, -2⟩, ⟨6, -2⟩, ⟨8, -1⟩, ⟨10, 0⟩]

/-- As `twoSurfaces`, 15 points, with the first line `(0, 0)` written twice. -/
def twoSurfacesRepeatedStart : List Point :=
  [⟨0, 0⟩, ⟨0, 0⟩, ⟨1, 1⟩, ⟨2, 2⟩, ⟨3, 2⟩, ⟨4, 2⟩, ⟨5, 1⟩, ⟨6, 0⟩,
   ⟨0, 0⟩, ⟨1, -1⟩, ⟨2, -2⟩, ⟨3, -2⟩, ⟨4, -2⟩, ⟨5, -1⟩, ⟨6, 0⟩]

/-- As `twoSurfaces`, but the lower surface starts at `(1, -1)`: the leading edge
`(0, 0)` is listed once, with the upper surface. -/
def twoSurfacesSingleNose : List Point :=
  [⟨0, 0⟩, ⟨2, 1⟩, ⟨4, 2⟩, ⟨6, 2⟩, ⟨8, 1⟩, ⟨10, 0⟩,
   ⟨1, -1⟩, ⟨2, -1⟩, ⟨4, -2⟩, ⟨6, -2⟩, ⟨8, -1⟩, ⟨10, 0⟩]

/-- As `twoSurfaces`, but the point of smallest x, `(0, -1)`, is on the lower
surface and the upper surface starts at `(1, 0)`. -/
def twoSurfacesLowNose : List Point :=
  [⟨1, 0⟩, ⟨2, 1⟩, ⟨4, 2⟩, ⟨6, 2⟩, ⟨8, 1⟩, ⟨10, 0⟩,
   ⟨0, -1⟩, ⟨2, -1⟩, ⟨4, -2⟩, ⟨6, -2⟩, ⟨8, -1⟩, ⟨10, 0⟩]

/-- Twelve points in the output order: trailing edge, upper surface down to the
leading edge `(0, 0)`, lower surface back to the trailing edge. -/
def closedLoop : List Point :=
  [⟨10, 0⟩, ⟨8, 1⟩, ⟨6, 2⟩, ⟨4, 2⟩, ⟨2, 1⟩, ⟨0, 0⟩,
   ⟨2, -1⟩, ⟨4, -2⟩, ⟨6, -2⟩, ⟨8, -1⟩, ⟨10, 0⟩, ⟨10, 0⟩]

/-! # Properties of `buildParetoFront` -/

/-! ### The inner scan -/

theorem firstDominator_some {cL efficiency : List ℚ} {i j : Nat}
    (h : firstDominator cL efficiency i = some j) :
    i < j ∧ j < cL.length ∧ dominates cL efficiency i j = true ∧
      ∀ k, i < k → k < j → dominates cL efficiency i k = false := by
  unfold firstDominator at h
  rw [List.find?_range'_eq_some] at h
  obtain ⟨hdom, hmem, hbefore⟩ := h
  rw [List.mem_range'_1] at hmem
  refine ⟨by omega, by omega, hdom, ?_⟩
  intro k hik hkj
  have := hbefore k (by omega) hkj
  simpa using this

theorem firstDominator_none {cL efficiency : List ℚ} {i : Nat} :
    firstDominator cL efficiency i = none ↔
      ∀ j, i < j → j < cL.length → dominates cL efficiency i j = false := by
  unfold firstDominator
  rw [List.find?_range'_eq_none]
  constructor
  · intro h j hij hj
    have := h j (by omega) (by omega)
    simpa using this
  · intro h j hij hj
    have := h j (by omega) (by omega)
    simp [this]

/-! ### The cursor loop -/

theorem paretoLoop_eq_trace (cL cD efficiency : List ℚ) :
    ∀ (fuel i : Nat) (front : List (ℚ × ℚ)), i ≤ cL.length → cL.length < fuel + i →
      paretoLoop cL cD efficiency fuel i front =
        some (front ++ ((cursorTrace cL cD efficiency fuel i).filter
          (emitsAt cL cD efficiency)).map (pointAt cL efficiency)) := by
  intro fuel
  induction fuel with
  | zero => intro i front h1 h2; omega
  | succ fuel ih =>
    intro i front h1 h2
    rw [paretoLoop, cursorTrace]
    by_cases hi : i < cL.length
    · simp only [hi, if_true]
      cases hinv : isInvalid cL cD i with
      | true =>
        rw [ih (i + 1) front (by omega) (by omega)]
        simp [List.filter_cons, emitsAt, hinv]
      | false =>
        cases hd : firstDominator cL efficiency i with
        | none =>
          simp only [Bool.false_eq_true, if_false]
          rw [ih (i + 1) _ (by omega) (by omega)]
          simp [List.filter_cons, emitsAt, hinv, hd]
        | some j =>
          have hj := firstDominator_some hd
          simp only [Bool.false_eq_true, if_false]
          rw [ih j front (by omega) (by omega)]
          simp [List.filter_cons, emitsAt, hinv, hd]
    · simp [hi]

theorem cursorTrace_bounds (cL cD efficiency : List ℚ) :
    ∀ (fuel i k : Nat), k ∈ cursorTrace cL cD efficiency fuel i → i ≤ k ∧ k < cL.length := by
  intro fuel
  induction fuel with
  | zero => intro i k hk; simp [cursorTrace] at hk
  | succ fuel ih =>
    intro i k hk
    rw [cursorTrace] at hk
    by_cases hi : i < cL.length
    · simp only [hi, if_true, List.mem_cons] at hk
      rcases hk with rfl | hk
      · exact ⟨le_refl _, hi⟩
      · cases hinv : isInvalid cL cD i with
        | true =>
          simp only [hinv, if_true] at hk
          have := ih _ _ hk
          omega
        | false =>
          simp only [hinv, Bool.false_eq_true, if_false] at hk
          cases hd : firstDominator cL efficiency i with
          | none =>
            simp only [hd] at hk
            have := ih _ _ hk
            omega
          | some j =>
            simp only [hd] at hk
            have hj := firstDominator_some hd
            have := ih _ _ hk
            omega
    · simp [hi] at hk

theorem cursorTrace_increasing (cL cD efficiency : List ℚ) :
    ∀ (fuel i : Nat), (cursorTrace cL cD efficiency fuel i).Pairwise (· < ·) := by
  intro fuel
  induction fuel with
  | zero => intro i; simp [cursorTrace]
  | succ fuel ih =>
    intro i
    rw [cursorTrace]
    by_cases hi : i < cL.length
    · simp only [hi, if_true, List.pairwise_cons]
      cases hinv : isInvalid cL cD i with
      | true =>
        simp only [if_true]
        refine ⟨fun k hk => ?_, ih _⟩
        have := cursorTrace_bounds cL cD efficiency _ _ _ hk
        omega
      | false =>
        simp only [Bool.false_eq_true, if_false]
        cases hd : firstDominator cL efficiency i with
        | none =>
          refine ⟨fun k hk => ?_, ih _⟩
          have := cursorTrace_bounds cL cD efficiency _ _ _ hk
          omega
        | some j =>
          have hj := firstDominator_some hd
          refine ⟨fun k hk => ?_, ih _⟩
          have := cursorTrace_bounds cL cD efficiency _ _ _ hk
          omega
    · simp [hi]

/-- The iteration budget of `buildParetoFront` is never exhausted: the front is
the list of the points of the emitted indices. -/
theorem buildParetoFront_eq (paretoFront : List (ℚ × ℚ)) (alpha cL cD efficiency : List ℚ) :
    buildParetoFront paretoFront alpha cL cD efficiency =
      some ((emitted cL cD efficiency).map (pointAt cL efficiency)) := by
  unfold buildParetoFront emitted visited clear
  rw [paretoLoop_eq_trace cL cD efficiency _ 0 [] (by omega) (by omega)]
  simp

theorem mem_emitted {cL cD efficiency : List ℚ} {i : Nat} (h : i ∈ emitted cL cD efficiency) :
    i ∈ visited cL cD efficiency ∧ i < cL.length ∧ isInvalid cL cD i = false ∧
      firstDominator cL efficiency i = none := by
  unfold emitted at h
  rw [List.mem_filter] at h
  obtain ⟨hv, he⟩ := h
  have hb := cursorTrace_bounds cL cD efficiency _ _ _ hv
  simp only [emitsAt, Bool.and_eq_true, Bool.not_eq_true', Option.isNone_iff_eq_none] at he
  exact ⟨hv, hb.2, he.1, he.2⟩

theorem dominates_iff {cL efficiency : List ℚ} {i j : Nat} :
    dominates cL efficiency i j = true ↔
      cL.getD j 0 > cL.getD i 0 ∧ efficiency.getD j 0 > efficiency.getD i 0 := by
  simp [dominates]

theorem isInvalid_iff {cL cD : List ℚ} {i : Nat} :
    isInvalid cL cD i = true ↔ cL.getD i 0 = 0 ∧ cD.getD i 0 = 0 := by
  simp [isInvalid]

theorem head?_filter_eq_find? {α : Type} (p : α → Bool) :
    ∀ l : List α, (l.filter p).head? = l.find? p
  | [] => rfl
  | a :: l => by
    cases h : p a
    · simp [List.filter_cons, List.find?_cons, h, head?_filter_eq_find? p l]
    · simp [List.filter_cons, List.find?_cons, h]

/-- In a strictly increasing list, `find?` returns the smallest element that
satisfies the test. -/
theorem find?_least {p : Nat → Bool} :
    ∀ {l : List Nat} {i : Nat}, l.Pairwise (· < ·) → l.find? p = some i →
      ∀ k ∈ l, k < i → p k = false
  | [], _, _, h => by simp at h
  | a :: l, i, hs, h => by
    intro k hk hki
    rw [List.pairwise_cons] at hs
    cases hpa : p a
    · rw [List.find?_cons, hpa] at h
      rcases List.mem_cons.1 hk with rfl | hk
      · exact hpa
      · exact find?_least hs.2 h k hk hki
    · rw [List.find?_cons, hpa] at h
      cases h
      rcases List.mem_cons.1 hk with rfl | hk
      · omega
      · have := hs.1 k hk
        omega

/-! ### Claims about `buildParetoFront` -/

/-- C1: if `buildParetoFront` emits the record at index `i` into the front, then no
record at a later index `j > i` has both `cL[j] > cL[i]` and
`efficiency[j] > efficiency[i]`.  The first conjunct states that the front returned
is the list of the points of the emitted indices. -/
theorem emitted_not_dominated_by_later (paretoFront : List (ℚ × ℚ))
    (alpha cL cD efficiency : List ℚ) :
    buildParetoFront paretoFront alpha cL cD efficiency =
        some ((emitted cL cD efficiency).map (pointAt cL efficiency)) ∧
      ∀ i ∈ emitted cL cD efficiency, ∀ j, i < j → j < cL.length →
        ¬ (cL.getD j 0 > cL.getD i 0 ∧ efficiency.getD j 0 > efficiency.getD i 0) := by
  refine ⟨buildParetoFront_eq _ _ _ _ _, ?_⟩
  intro i hi j hij hj hdom
  have hnone := (mem_emitted hi).2.2.2
  have := firstDominator_none.1 hnone j hij hj
  rw [dominates_iff.2 hdom] at this
  cases this

/-- C2, as stated, fails: in the two-record sweep `cL = [4, 2]`, `cD = [2, 2]`,
`efficiency = [2, 1]` both records are emitted, and the record at index 1 is
dominated by the earlier record at index 0 (`4 > 2` and `2 > 1`). -/
theorem front_point_dominated_by_earlier :
    buildParetoFront [] [0, 1] [4, 2] [2, 2] [2, 1] = some [(4, 2), (2, 1)] ∧
      emitted [4, 2] [2, 2] [2, 1] = [0, 1] ∧
      ((0 : Nat) ≠ 1 ∧ ([4, 2] : List ℚ).getD 0 0 > ([4, 2] : List ℚ).getD 1 0 ∧
        ([2, 1] : List ℚ).getD 0 0 > ([2, 1] : List ℚ).getD 1 0) := by
  decide

/-- C2 (amended): no point of the front is dominated by a later record of the
sweep: every record `j ≠ i` that has both `cL[j] > cL[i]` and
`efficiency[j] > efficiency[i]` for an emitted index `i` lies before `i`. -/
theorem emitted_dominators_are_earlier (paretoFront : List (ℚ × ℚ))
    (alpha cL cD efficiency : List ℚ) :
    buildParetoFront paretoFront alpha cL cD efficiency =
        some ((emitted cL cD efficiency).map (pointAt cL efficiency)) ∧
      ∀ i ∈ emitted cL cD efficiency, ∀ j, j ≠ i → j < cL.length →
        cL.getD j 0 > cL.getD i 0 ∧ efficiency.getD j 0 > efficiency.getD i 0 → j < i := by
  refine ⟨buildParetoFront_eq _ _ _ _ _, ?_⟩
  intro i hi j hne hj hdom
  by_contra hlt
  have hnone := (mem_emitted hi).2.2.2
  have := firstDominator_none.1 hnone j (by omega) hj
  rw [dominates_iff.2 hdom] at this
  cases this

/-- The efficiency of a row with `cL == 0` and `cD == 0` matters: if such a row
carries an ordinary number that exceeds the efficiency of a valid record of
negative lift, as in `cL = [-1, 0]`, `cD = [1, 0]`, `efficiency = [-1, 0]`, the
inner scan lets it dominate that record, the cursor jumps there and skips it,
and the front is empty.  With `efficiency = cL / cD` the row holds NaN and this
does not happen. -/
theorem front_empty_when_sentinel_dominates :
    isInvalid [-1, 0] [1, 0] 0 = false ∧
      firstDominator [-1, 0] [-1, 0] 0 = some 1 ∧
      isInvalid [-1, 0] [1, 0] 1 = true ∧
      buildParetoFront [] [0, 1] [-1, 0] [1, 0] [-1, 0] = some [] := by
  decide

/-- C4, as stated, fails: for `cL = [4, 2, 6]`, `cD = [4, 1, 3]`,
`efficiency = [1, 2, 2]` the front is `[(6, 2)]`.  Record 0 is dominated by
record 2; record 1 is valid and is not dominated by record 2, the only later
record, so it is the smallest-index valid record that no later record
dominates, and its point `(2, 2)` is not the first front entry. -/
theorem first_entry_skips_undominated_record :
    buildParetoFront [] [0, 1, 2] [4, 2, 6] [4, 1, 3] [1, 2, 2] = some [(6, 2)] ∧
      dominates [4, 2, 6] [1, 2, 2] 0 2 = true ∧
      isInvalid [4, 2, 6] [4, 1, 3] 1 = false ∧
      dominates [4, 2, 6] [1, 2, 2] 1 2 = false ∧
      pointAt [4, 2, 6] [1, 2, 2] 1 = (2, 2) ∧
      ((2, 2) : ℚ × ℚ) ≠ (6, 2) := by
  decide

/-- C4 (amended): the first front entry is the point of the first cursor position
`i` that holds a valid record which no later record dominates; every cursor
position before it is invalid or dominated by a later record.  Records that a
jump of the cursor passes over are not cursor positions and are not considered.
When the front is non-empty such an `i` exists. -/
theorem first_entry_is_first_visited_undominated (paretoFront : List (ℚ × ℚ))
    (alpha cL cD efficiency : List ℚ) :
    ∃ front, buildParetoFront paretoFront alpha cL cD efficiency = some front ∧
      front.head? = ((visited cL cD efficiency).find? (emitsAt cL cD efficiency)).map
        (pointAt cL efficiency) ∧
      ∀ i, (visited cL cD efficiency).find? (emitsAt cL cD efficiency) = some i →
        i ∈ visited cL cD efficiency ∧ i < cL.length ∧
        ¬ (cL.getD i 0 = 0 ∧ cD.getD i 0 = 0) ∧
        (∀ j, i < j → j < cL.length →
          ¬ (cL.getD j 0 > cL.getD i 0 ∧ efficiency.getD j 0 > efficiency.getD i 0)) ∧
        ∀ k ∈ visited cL cD efficiency, k < i →
          (cL.getD k 0 = 0 ∧ cD.getD k 0 = 0) ∨
          ∃ j, k < j ∧ j < cL.length ∧
            cL.getD j 0 > cL.getD k 0 ∧ efficiency.getD j 0 > efficiency.getD k 0 := by
  refine ⟨_, buildParetoFront_eq _ _ _ _ _, ?_, ?_⟩
  · rw [List.head?_map, emitted, head?_filter_eq_find?]
  · intro i hi
    have hmem : i ∈ emitted cL cD efficiency := by
      rw [emitted, List.mem_filter]
      exact ⟨List.mem_of_find?_eq_some hi, List.find?_some hi⟩
    obtain ⟨hv, hlt, hinv, hnone⟩ := mem_emitted hmem
    refine ⟨hv, hlt, ?_, ?_, ?_⟩
    · intro h
      rw [isInvalid_iff.2 h] at hinv
      cases hinv
    · intro j hij hj hdom
      have := firstDominator_none.1 hnone j hij hj
      rw [dominates_iff.2 hdom] at this
      cases this
    · intro k hk hki
      have hfalse := find?_least (cursorTrace_increasing cL cD efficiency _ _) hi k hk hki
      cases hinv : isInvalid cL cD k with
      | true => exact Or.inl (isInvalid_iff.1 hinv)
      | false =>
        right
        cases hd : firstDominator cL efficiency k with
        | none => simp [emitsAt, hinv, hd] at hfalse
        | some j =>
          obtain ⟨h1, h2, h3, _⟩ := firstDominator_some hd
          exact ⟨j, h1, h2, dominates_iff.1 h3⟩

/-- C5: in a sweep of three valid records in which record 1 dominates record 0
and record 2 does not dominate record 1, the front is exactly
`[(cL[1], efficiency[1]), (cL[2], efficiency[2])]`. -/
theorem three_record_front (paretoFront : List (ℚ × ℚ)) (alpha : List ℚ)
    (c0 c1 c2 d0 d1 d2 e0 e1 e2 : ℚ)
    (hv0 : ¬ (c0 = 0 ∧ d0 = 0)) (hv1 : ¬ (c1 = 0 ∧ d1 = 0)) (hv2 : ¬ (c2 = 0 ∧ d2 = 0))
    (h10 : c1 > c0 ∧ e1 > e0) (h21 : ¬ (c2 > c1 ∧ e2 > e1)) :
    buildParetoFront paretoFront alpha [c0, c1, c2] [d0, d1, d2] [e0, e1, e2] =
      some [(c1, e1), (c2, e2)] := by
  have i0 : isInvalid [c0, c1, c2] [d0, d1, d2] 0 = false := by
    simpa [isInvalid] using hv0
  have i1 : isInvalid [c0, c1, c2] [d0, d1, d2] 1 = false := by
    simpa [isInvalid] using hv1
  have i2 : isInvalid [c0, c1, c2] [d0, d1, d2] 2 = false := by
    simpa [isInvalid] using hv2
  have f0 : firstDominator [c0, c1, c2] [e0, e1, e2] 0 = some 1 := by
    simp [firstDominator, dominates, List.range', List.find?_cons, h10.1, h10.2]
  have f1 : firstDominator [c0, c1, c2] [e0, e1, e2] 1 = none := by
    refine firstDominator_none.2 (fun j hij hj => ?_)
    have hj2 : j = 2 := by simp at hj; omega
    subst hj2
    cases hd : dominates [c0, c1, c2] [e0, e1, e2] 1 2 with
    | false => rfl
    | true => exact absurd (by simpa using dominates_iff.1 hd) h21
  have f2 : firstDominator [c0, c1, c2] [e0, e1, e2] 2 = none := by
    simp [firstDominator]
  simp [buildParetoFront, clear, paretoLoop, i0, i1, i2, f0, f1, f2, pointAt]

/-- C5 at the sweep of the specification's first example: `cL = [0.1, 0.5, 0.9]`,
`cD = [0.05, 0.1, 0.3]`, `efficiency = [2, 5, 3]` gives the front
`[(0.5, 5), (0.9, 3)]`. -/
theorem three_record_front_example :
    buildParetoFront [] [0, 1, 2] [0.1, 0.5, 0.9] [0.05, 0.1, 0.3] [2, 5, 3] =
      some [(0.5, 5), (0.9, 3)] :=
  three_record_front [] [0, 1, 2] 0.1 0.5 0.9 0.05 0.1 0.3 2 5 3
    (by norm_num) (by norm_num) (by norm_num) (by norm_num) (by norm_num)

/-- C6: the front built by `buildParetoFront` is the list of `(cL[i], efficiency[i])`
over the strictly increasing list `emitted` of indices, each of which is in range
and holds a valid record (not both `cL[i] == 0` and `cD[i] == 0`); when every
record has `cL == 0` and `cD == 0` the front is empty. -/
theorem front_is_increasing_valid_indices (paretoFront : List (ℚ × ℚ))
    (alpha cL cD efficiency : List ℚ) :
    buildParetoFront paretoFront alpha cL cD efficiency =
        some ((emitted cL cD efficiency).map (pointAt cL efficiency)) ∧
      (emitted cL cD efficiency).Pairwise (· < ·) ∧
      (∀ i ∈ emitted cL cD efficiency,
        i < cL.length ∧ ¬ (cL.getD i 0 = 0 ∧ cD.getD i 0 = 0)) ∧
      ((∀ i, i < cL.length → cL.getD i 0 = 0 ∧ cD.getD i 0 = 0) →
        buildParetoFront paretoFront alpha cL cD efficiency = some []) := by
  have hvalid : ∀ i ∈ emitted cL cD efficiency,
      i < cL.length ∧ ¬ (cL.getD i 0 = 0 ∧ cD.getD i 0 = 0) := by
    intro i hi
    obtain ⟨_, hlt, hinv, _⟩ := mem_emitted hi
    refine ⟨hlt, fun h => ?_⟩
    rw [isInvalid_iff.2 h] at hinv
    cases hinv
  refine ⟨buildParetoFront_eq _ _ _ _ _, ?_, hvalid, ?_⟩
  · exact (cursorTrace_increasing cL cD efficiency _ _).filter _
  · intro hall
    have hnil : emitted cL cD efficiency = [] := by
      rw [List.eq_nil_iff_forall_not_mem]
      intro i hi
      exact (hvalid i hi).2 (hall i (hvalid i hi).1)
    rw [buildParetoFront_eq, hnil]
    rfl

/-! # Properties of `findOptimalConfig` -/

theorem matchesAt_iff {cL efficiency : List ℚ} {p : ℚ × ℚ} {i : Nat} :
    matchesAt cL efficiency p i = true ↔ cL.getD i 0 = p.1 ∧ efficiency.getD i 0 = p.2 := by
  simp [matchesAt]

/-- The result of `findOptimalConfig` on a non-empty front, in terms of the lookup. -/
theorem findOptimalConfig_cons (p : ℚ × ℚ) (rest : List (ℚ × ℚ))
    (alpha cL cD efficiency : List ℚ) :
    findOptimalConfig (p :: rest) alpha cL cD efficiency =
      match (List.range alpha.length).find? (matchesAt cL efficiency p) with
      | some i =>
        .ok { alphaOptimal := alpha.getD i 0
              cDOptimal := cD.getD i 0
              cLOptimal := p.1
              efficiencyOptimal := p.2 }
      | none => .error .NoMatch := rfl

/-- C7: whenever `findOptimalConfig` succeeds, `cLOptimal` and `efficiencyOptimal`
are the components of the first front point, and `alphaOptimal`, `cDOptimal` are
`alpha[k]`, `cD[k]` for the smallest index `k` whose `(cL[k], efficiency[k])`
equals that point; the rest of the front plays no role. -/
theorem optimal_is_first_match (paretoFront : List (ℚ × ℚ)) (alpha cL cD efficiency : List ℚ)
    (r : OptimalConfig)
    (h : findOptimalConfig paretoFront alpha cL cD efficiency = .ok r) :
    ∃ optimalPoint rest k, paretoFront = optimalPoint :: rest ∧
      r.cLOptimal = optimalPoint.1 ∧ r.efficiencyOptimal = optimalPoint.2 ∧
      k < alpha.length ∧
      cL.getD k 0 = optimalPoint.1 ∧ efficiency.getD k 0 = optimalPoint.2 ∧
      (∀ m, m < k → ¬ (cL.getD m 0 = optimalPoint.1 ∧ efficiency.getD m 0 = optimalPoint.2)) ∧
      r.alphaOptimal = alpha.getD k 0 ∧ r.cDOptimal = cD.getD k 0 := by
  cases paretoFront with
  | nil => simp [findOptimalConfig] at h
  | cons p rest =>
    rw [findOptimalConfig_cons] at h
    cases hf : (List.range alpha.length).find? (matchesAt cL efficiency p) with
    | none => rw [hf] at h; cases h
    | some k =>
      rw [hf] at h
      simp only [Except.ok.injEq] at h
      rw [List.find?_range_eq_some] at hf
      obtain ⟨hk, hmem, hbefore⟩ := hf
      have hk2 := matchesAt_iff.1 hk
      refine ⟨p, rest, k, rfl, ?_, ?_, List.mem_range.1 hmem, hk2.1, hk2.2, ?_, ?_, ?_⟩
      · rw [← h]
      · rw [← h]
      · intro m hm hmatch
        have := hbefore m hm
        rw [matchesAt_iff.2 hmatch] at this
        cases this
      · rw [← h]
      · rw [← h]

/-- C7 on a concrete sweep: the front point `(5, 5)` occurs at indices 1 and 2 of the
sweep and the lookup stops at index 1. -/
theorem optimal_is_first_match_example :
    ∃ optimalPoint rest k, [((5 : ℚ), (5 : ℚ)), (9, 3)] = optimalPoint :: rest ∧
      (5 : ℚ) = optimalPoint.1 ∧ (5 : ℚ) = optimalPoint.2 ∧
      k < ([10, 11, 12, 13] : List ℚ).length ∧
      ([1, 5, 5, 9] : List ℚ).getD k 0 = optimalPoint.1 ∧
      ([1, 5, 5, 3] : List ℚ).getD k 0 = optimalPoint.2 ∧
      (∀ m, m < k → ¬ (([1, 5, 5, 9] : List ℚ).getD m 0 = optimalPoint.1 ∧
        ([1, 5, 5, 3] : List ℚ).getD m 0 = optimalPoint.2)) ∧
      (11 : ℚ) = ([10, 11, 12, 13] : List ℚ).getD k 0 ∧
      (1 : ℚ) = ([1, 1, 2, 3] : List ℚ).getD k 0 :=
  optimal_is_first_match [(5, 5), (9, 3)] [10, 11, 12, 13] [1, 5, 5, 9] [1, 1, 2, 3]
    [1, 5, 5, 3] ⟨11, 5, 1, 5⟩ (by rfl)

theorem lookup_eq_none_iff {cL efficiency : List ℚ} {p : ℚ × ℚ} {n : Nat} :
    (List.range n).find? (matchesAt cL efficiency p) = none ↔
      ∀ k, k < n → ¬ (cL.getD k 0 = p.1 ∧ efficiency.getD k 0 = p.2) := by
  rw [List.find?_range_eq_none]
  constructor
  · intro h k hk hmatch
    have := h k hk
    rw [matchesAt_iff.2 hmatch] at this
    cases this
  · intro h k hk
    cases hm : matchesAt cL efficiency p k with
    | false => rfl
    | true => exact absurd (matchesAt_iff.1 hm) (h k hk)

/-- C8: `findOptimalConfig` fails with `EmptyFront` exactly when the front is empty,
fails with `NoMatch` exactly when the front is non-empty and no index `k` of the
sweep has `(cL[k], efficiency[k])` equal to the first front point, and succeeds
exactly in the remaining case (non-empty front and some matching index). -/
theorem findOptimalConfig_outcomes (paretoFront : List (ℚ × ℚ))
    (alpha cL cD efficiency : List ℚ) :
    (findOptimalConfig paretoFront alpha cL cD efficiency = .error .EmptyFront ↔
        paretoFront = []) ∧
      (findOptimalConfig paretoFront alpha cL cD efficiency = .error .NoMatch ↔
        ∃ p rest, paretoFront = p :: rest ∧
          ∀ k, k < alpha.length → ¬ (cL.getD k 0 = p.1 ∧ efficiency.getD k 0 = p.2)) ∧
      ((∃ r, findOptimalConfig paretoFront alpha cL cD efficiency = .ok r) ↔
        ∃ p rest, paretoFront = p :: rest ∧
          ∃ k, k < alpha.length ∧ cL.getD k 0 = p.1 ∧ efficiency.getD k 0 = p.2) := by
  cases paretoFront with
  | nil => simp [findOptimalConfig]
  | cons p rest =>
    rw [findOptimalConfig_cons]
    cases hf : (List.range alpha.length).find? (matchesAt cL efficiency p) with
    | none =>
      have hnone := lookup_eq_none_iff.1 hf
      refine ⟨by simp, ⟨fun _ => ⟨p, rest, rfl, hnone⟩, fun _ => rfl⟩, ?_⟩
      constructor
      · rintro ⟨r, hr⟩
        cases hr
      · rintro ⟨q, rest2, heq, k, hk, hmatch⟩
        cases heq
        exact absurd hmatch (hnone k hk)
    | some i =>
      rw [List.find?_range_eq_some] at hf
      obtain ⟨hi, hmem, _⟩ := hf
      have hi2 := matchesAt_iff.1 hi
      refine ⟨by simp, ⟨fun h => (nomatch h), ?_⟩,
        ⟨fun _ => ⟨p, rest, rfl, i, List.mem_range.1 hmem, hi2⟩, fun _ => ⟨_, rfl⟩⟩⟩
      rintro ⟨q, rest2, heq, hall⟩
      cases heq
      exact absurd hi2 (hall i (List.mem_range.1 hmem))

/-- C9: for a sweep whose arrays `alpha` and `cL` have the same length, the front
returned by `buildParetoFront` is either empty or accepted by `findOptimalConfig`
run on it with the same sweep: the `NoMatch` exit cannot be reached. -/
theorem no_match_unreachable (paretoFront : List (ℚ × ℚ)) (alpha cL cD efficiency : List ℚ)
    (hlen : alpha.length = cL.length) :
    ∃ front, buildParetoFront paretoFront alpha cL cD efficiency = some front ∧
      (front ≠ [] → ∃ r, findOptimalConfig front alpha cL cD efficiency = .ok r) := by
  refine ⟨_, buildParetoFront_eq _ _ _ _ _, ?_⟩
  intro hne
  cases hem : emitted cL cD efficiency with
  | nil => rw [hem] at hne; exact absurd rfl hne
  | cons i rest =>
    have hi : i ∈ emitted cL cD efficiency := by rw [hem]; exact List.mem_cons_self _ _
    have hlt := (mem_emitted hi).2.1
    rw [List.map_cons, findOptimalConfig_cons]
    cases hf : (List.range alpha.length).find? (matchesAt cL efficiency (pointAt cL efficiency i)) with
    | some k => exact ⟨_, rfl⟩
    | none =>
      have := lookup_eq_none_iff.1 hf i (by omega)
      exact absurd ⟨rfl, rfl⟩ this

/-- C9 on the sweep of the specification's first example (scaled to integers). -/
theorem no_match_unreachable_example :
    ∃ front, buildParetoFront [] [0, 1, 2] [1, 5, 9] [1, 1, 3] [1, 5, 3] = some front ∧
      (front ≠ [] → ∃ r, findOptimalConfig front [0, 1, 2] [1, 5, 9] [1, 1, 3] [1, 5, 3] = .ok r) :=
  no_match_unreachable [] [0, 1, 2] [1, 5, 9] [1, 1, 3] [1, 5, 3] (by decide)

/-! # Properties of `processAirfoilPoints` -/

/-- C10: `processAirfoilPoints` fails, with `TooFewPoints`, if and only if the input
has fewer than 10 points, and returns a point list if and only if it has 10 or
more. -/
theorem processAirfoilPoints_fails_iff (points : List Point) :
    (processAirfoilPoints points = .error .TooFewPoints ↔ points.length < 10) ∧
      ((∃ e, processAirfoilPoints points = .error e) ↔ points.length < 10) ∧
      ((∃ out, processAirfoilPoints points = .ok out) ↔ 10 ≤ points.length) := by
  unfold processAirfoilPoints
  by_cases h : points.length < 10
  · rw [if_pos h]
    refine ⟨⟨fun _ => h, fun _ => rfl⟩, ⟨fun _ => h, fun _ => ⟨_, rfl⟩⟩, ?_, ?_⟩
    · rintro ⟨_, ho⟩
      cases ho
    · intro hge
      omega
  · rw [if_neg h]
    refine ⟨⟨?_, fun hlt => absurd hlt h⟩, ⟨?_, fun hlt => absurd hlt h⟩, ?_, ?_⟩
    · intro he
      cases he
    · rintro ⟨_, he⟩
      cases he
    · intro _
      omega
    · intro _
      exact ⟨_, rfl⟩

/-! ### The classification loop -/

theorem firstDecrease_some {points : List Point} {s : Nat} (h : firstDecrease points = some s) :
    1 ≤ s ∧ s < points.length ∧
      (points.getD s ⟨0, 0⟩).x < (points.getD (s - 1) ⟨0, 0⟩).x ∧
      ∀ i, 1 ≤ i → i < s → ¬ (points.getD i ⟨0, 0⟩).x < (points.getD (i - 1) ⟨0, 0⟩).x := by
  unfold firstDecrease at h
  rw [List.find?_range'_eq_some] at h
  obtain ⟨hs, hmem, hbefore⟩ := h
  rw [List.mem_range'_1] at hmem
  refine ⟨by omega, by omega, by simpa using hs, ?_⟩
  intro i h1 h2
  have := hbefore i h1 h2
  simpa using this

theorem firstDecrease_none {points : List Point} (h : firstDecrease points = none) :
    ∀ i, 1 ≤ i → i < points.length →
      ¬ (points.getD i ⟨0, 0⟩).x < (points.getD (i - 1) ⟨0, 0⟩).x := by
  unfold firstDecrease at h
  rw [List.find?_range'_eq_none] at h
  intro i h1 h2
  have := h i h1 (by omega)
  simpa using this

/-- The three facts that determine `switchIndex`. -/
theorem switchIndex_spec (points : List Point) :
    switchIndex points ≤ points.length ∧
      (∀ i, 1 ≤ i → i < switchIndex points →
        ¬ (points.getD i ⟨0, 0⟩).x < (points.getD (i - 1) ⟨0, 0⟩).x) ∧
      (switchIndex points < points.length →
        1 ≤ switchIndex points ∧
        (points.getD (switchIndex points) ⟨0, 0⟩).x <
          (points.getD (switchIndex points - 1) ⟨0, 0⟩).x) := by
  unfold switchIndex
  cases h : firstDecrease points with
  | none =>
    simp only [Option.getD_none]
    exact ⟨le_refl _, firstDecrease_none h, fun hlt => absurd hlt (lt_irrefl _)⟩
  | some s =>
    simp only [Option.getD_some]
    obtain ⟨h1, h2, h3, h4⟩ := firstDecrease_some h
    exact ⟨by omega, h4, fun _ => ⟨h1, h3⟩⟩

theorem upperSet_snoc (L : Point) (ps : List Point) (p : Point) :
    upperSet L (ps ++ [p]) = if p.ne L then setInsert p (upperSet L ps) else upperSet L ps := by
  simp [upperSet, List.foldl_append]

theorem take_succ_getD (ps : List Point) (k : Nat) (hk : k < ps.length) :
    ps.take (k + 1) = ps.take k ++ [ps.getD k ⟨0, 0⟩] := by
  rw [List.take_succ, List.getD_eq_getElem?_getD, List.getElem?_eq_getElem hk]
  rfl

theorem getD_drop (ps : List Point) (s j : Nat) :
    (ps.drop s).getD j ⟨0, 0⟩ = ps.getD (s + j) ⟨0, 0⟩ := by
  rw [List.getD_eq_getElem?_getD, List.getD_eq_getElem?_getD, List.getElem?_drop]

theorem classifyStep_upper (points : List Point) (L : Point) (st : Surfaces) (i : Nat)
    (hst : st.isLowerSurface = false)
    (h : ¬ (i > 0 ∧ (points.getD i ⟨0, 0⟩).x < (points.getD (i - 1) ⟨0, 0⟩).x)) :
    classifyStep points L st i =
      { isLowerSurface := false
        uniqueUpper :=
          if (points.getD i ⟨0, 0⟩).ne L then setInsert (points.getD i ⟨0, 0⟩) st.uniqueUpper
          else st.uniqueUpper
        lowerPart := st.lowerPart } := by
  have hc : (decide (i > 0) &&
      decide ((points.getD i ⟨0, 0⟩).x < (points.getD (i - 1) ⟨0, 0⟩).x)) = false := by
    cases hd : (decide (i > 0) &&
      decide ((points.getD i ⟨0, 0⟩).x < (points.getD (i - 1) ⟨0, 0⟩).x)) with
    | false => rfl
    | true =>
      rw [Bool.and_eq_true, decide_eq_true_eq, decide_eq_true_eq] at hd
      exact absurd hd h
  unfold classifyStep
  simp only [hc, hst, Bool.false_and, Bool.false_eq_true, if_false]

theorem classifyStep_switch (points : List Point) (L : Point) (st : Surfaces) (i : Nat)
    (hst : st.isLowerSurface = false)
    (h : i > 0 ∧ (points.getD i ⟨0, 0⟩).x < (points.getD (i - 1) ⟨0, 0⟩).x) :
    classifyStep points L st i =
      { isLowerSurface := true
        uniqueUpper := st.uniqueUpper
        lowerPart := st.lowerPart ++ [points.getD i ⟨0, 0⟩] } := by
  have hc : (decide (i > 0) &&
      decide ((points.getD i ⟨0, 0⟩).x < (points.getD (i - 1) ⟨0, 0⟩).x)) = true := by
    rw [Bool.and_eq_true, decide_eq_true_eq, decide_eq_true_eq]
    exact h
  unfold classifyStep
  simp only [hc, hst, Bool.not_false, Bool.and_self, if_true]

theorem classifyStep_lower (points : List Point) (L : Point) (st : Surfaces) (i : Nat)
    (hst : st.isLowerSurface = true) :
    classifyStep points L st i =
      { isLowerSurface := true
        uniqueUpper := st.uniqueUpper
        lowerPart := st.lowerPart ++ [points.getD i ⟨0, 0⟩] } := by
  unfold classifyStep
  simp only [hst, Bool.not_true, Bool.and_false, Bool.false_eq_true, if_false, if_true]

/-- State of the classification loop after the iterations `0 .. k-1`. -/
theorem classify_fold (points : List Point) (L : Point) :
    ∀ k, k ≤ points.length →
      (List.range k).foldl (classifyStep points L)
          { isLowerSurface := false, uniqueUpper := [], lowerPart := [] } =
        if k ≤ switchIndex points then
          { isLowerSurface := false, uniqueUpper := upperSet L (points.take k), lowerPart := [] }
        else
          { isLowerSurface := true
            uniqueUpper := upperSet L (points.take (switchIndex points))
            lowerPart := (points.drop (switchIndex points)).take (k - switchIndex points) } := by
  obtain ⟨hle, hmono, hswitch⟩ := switchIndex_spec points
  intro k
  induction k with
  | zero => intro _; simp [upperSet]
  | succ k ih =>
    intro hk
    rw [List.range_succ, List.foldl_append, List.foldl_cons, List.foldl_nil, ih (by omega)]
    by_cases h1 : k + 1 ≤ switchIndex points
    · have hk1 : k ≤ switchIndex points := by omega
      have hnd : ¬ (k > 0 ∧ (points.getD k ⟨0, 0⟩).x < (points.getD (k - 1) ⟨0, 0⟩).x) := by
        rintro ⟨hpos, hlt⟩
        exact hmono k hpos (by omega) hlt
      rw [if_pos hk1, if_pos h1, take_succ_getD points k (by omega), upperSet_snoc,
        classifyStep_upper points L _ k rfl hnd]
    · by_cases h2 : k = switchIndex points
      · have hlt : switchIndex points < points.length := by omega
        obtain ⟨hpos, hdec⟩ := hswitch hlt
        have htake : (points.drop k).take (k + 1 - k) = [points.getD k ⟨0, 0⟩] := by
          have := take_succ_getD (points.drop k) 0 (by rw [List.length_drop]; omega)
          rw [getD_drop] at this
          have e : k + 1 - k = 0 + 1 := by omega
          rw [e, this]
          rfl
        rw [if_pos (by omega), if_neg h1,
          classifyStep_switch points L _ k rfl (by rw [h2]; exact ⟨hpos, hdec⟩), ← h2, htake]
        rfl
      · have hgt : switchIndex points < k := by omega
        have htake : (points.drop (switchIndex points)).take (k + 1 - switchIndex points) =
            (points.drop (switchIndex points)).take (k - switchIndex points) ++
              [points.getD k ⟨0, 0⟩] := by
          have := take_succ_getD (points.drop (switchIndex points)) (k - switchIndex points)
            (by rw [List.length_drop]; omega)
          rw [getD_drop] at this
          have e1 : k - switchIndex points + 1 = k + 1 - switchIndex points := by omega
          have e2 : switchIndex points + (k - switchIndex points) = k := by omega
          rw [e1, e2] at this
          exact this
        rw [if_neg (by omega), if_neg h1, classifyStep_lower points L _ k rfl, htake]

/-- The output of `processAirfoilPoints` on an input of at least 10 points. -/
theorem processAirfoilPoints_eq (points : List Point) (h : 10 ≤ points.length) :
    processAirfoilPoints points =
      .ok (upperSegment points ++ points.drop (switchIndex points)) := by
  obtain ⟨hle, _, _⟩ := switchIndex_spec points
  unfold processAirfoilPoints
  rw [if_neg (by omega)]
  simp only []
  rw [classify_fold points _ points.length (le_refl _)]
  by_cases hs : points.length ≤ switchIndex points
  · have e : switchIndex points = points.length := by omega
    rw [if_pos hs]
    simp only [upperSegment, upperPartition, needsReversing, leadingEdge, e, List.drop_length,
      List.take_length]
  · rw [if_neg hs]
    have e : (points.drop (switchIndex points)).take (points.length - switchIndex points) =
        points.drop (switchIndex points) := by
      apply List.take_of_length_le
      rw [List.length_drop]
    simp only [upperSegment, upperPartition, needsReversing, leadingEdge, e]

theorem switchIndex_eq_of_first {points : List Point} {s : Nat}
    (h1 : 1 ≤ s) (h2 : s < points.length)
    (hdec : (points.getD s ⟨0, 0⟩).x < (points.getD (s - 1) ⟨0, 0⟩).x)
    (hmin : ∀ i, 1 ≤ i → i < s →
      ¬ (points.getD i ⟨0, 0⟩).x < (points.getD (i - 1) ⟨0, 0⟩).x) :
    switchIndex points = s := by
  obtain ⟨hle, hmono, hswitch⟩ := switchIndex_spec points
  rcases Nat.lt_trichotomy (switchIndex points) s with hlt | heq | hgt
  · obtain ⟨hp, hd⟩ := hswitch (by omega)
    exact absurd hd (hmin _ hp hlt)
  · exact heq
  · exact absurd hdec (hmono s h1 hgt)

theorem switchIndex_eq_length {points : List Point}
    (hnone : ∀ i, 1 ≤ i → i < points.length →
      ¬ (points.getD i ⟨0, 0⟩).x < (points.getD (i - 1) ⟨0, 0⟩).x) :
    switchIndex points = points.length := by
  obtain ⟨hle, _, hswitch⟩ := switchIndex_spec points
  by_contra hne
  have hlt : switchIndex points < points.length := by omega
  obtain ⟨hp, hd⟩ := hswitch hlt
  exact hnone _ hp hlt hd

theorem mem_setInsert {p q : Point} : ∀ {s : List Point}, q ∈ setInsert p s → q = p ∨ q ∈ s
  | [], h => by
    simp only [setInsert, List.mem_singleton] at h
    exact Or.inl h
  | a :: s, h => by
    unfold setInsert at h
    split at h
    · rcases List.mem_cons.1 h with h | h
      · exact Or.inl h
      · exact Or.inr h
    · split at h
      · rcases List.mem_cons.1 h with h | h
        · exact Or.inr (h ▸ List.mem_cons_self _ _)
        · rcases mem_setInsert h with h | h
          · exact Or.inl h
          · exact Or.inr (List.mem_cons_of_mem _ h)
      · exact Or.inr h

theorem mem_upperSet {L q : Point} :
    ∀ {ps : List Point}, q ∈ upperSet L ps → q ∈ ps ∧ q.ne L = true := by
  intro ps
  induction ps using List.reverseRecOn with
  | nil => intro h; simp [upperSet] at h
  | append_singleton ps p ih =>
    intro h
    rw [upperSet_snoc] at h
    by_cases hne : p.ne L = true
    · rw [if_pos hne] at h
      rcases mem_setInsert h with h | h
      · subst h
        exact ⟨by simp, hne⟩
      · exact ⟨List.mem_append_left _ (ih h).1, (ih h).2⟩
    · rw [if_neg hne] at h
      exact ⟨List.mem_append_left _ (ih h).1, (ih h).2⟩

theorem mem_upperSegment {points : List Point} {q : Point} (h : q ∈ upperSegment points) :
    q ∈ upperPartition points ∧ q.ne (leadingEdge points) = true := by
  unfold upperSegment at h
  split at h
  · exact mem_upperSet (List.mem_reverse.1 h)
  · exact mem_upperSet h

/-- C11: for an input of at least 10 points, if `s` is the smallest index `≥ 1` with
`points[s].x < points[s-1].x`, the output is `U ++ points[s..end]` with the suffix
copied unchanged and every element of `U` among `points[0..s-1]`; if x never
decreases the output is such a `U` alone, with no lower-surface suffix. -/
theorem output_is_upper_then_suffix (points : List Point) (h : 10 ≤ points.length) :
    (∀ s, 1 ≤ s → s < points.length →
        (points.getD s ⟨0, 0⟩).x < (points.getD (s - 1) ⟨0, 0⟩).x →
        (∀ i, 1 ≤ i → i < s →
          ¬ (points.getD i ⟨0, 0⟩).x < (points.getD (i - 1) ⟨0, 0⟩).x) →
        ∃ U, processAirfoilPoints points = .ok (U ++ points.drop s) ∧
          ∀ p ∈ U, p ∈ points.take s) ∧
      ((∀ i, 1 ≤ i → i < points.length →
          ¬ (points.getD i ⟨0, 0⟩).x < (points.getD (i - 1) ⟨0, 0⟩).x) →
        ∃ U, processAirfoilPoints points = .ok U ∧ ∀ p ∈ U, p ∈ points) := by
  constructor
  · intro s h1 h2 hdec hmin
    have hs := switchIndex_eq_of_first h1 h2 hdec hmin
    refine ⟨upperSegment points, ?_, ?_⟩
    · rw [processAirfoilPoints_eq points h, hs]
    · intro p hp
      have := (mem_upperSegment hp).1
      rw [upperPartition, hs] at this
      exact this
  · intro hnone
    have hs := switchIndex_eq_length hnone
    refine ⟨upperSegment points, ?_, ?_⟩
    · rw [processAirfoilPoints_eq points h, hs, List.drop_length, List.append_nil]
    · intro p hp
      have := (mem_upperSegment hp).1
      rw [upperPartition, hs, List.take_length] at this
      exact this

/-- C11 on the sample `twoSurfaces`, whose x first decreases at index 6. -/
theorem output_is_upper_then_suffix_example :
    ∃ U, processAirfoilPoints twoSurfaces = .ok (U ++ twoSurfaces.drop 6) ∧
      ∀ p ∈ U, p ∈ twoSurfaces.take 6 :=
  (output_is_upper_then_suffix twoSurfaces (by decide)).1 6 (by decide) (by decide)
    (by decide) (by decide)

/-! ### The set `uniqueUpper` -/

/-- Insertion of a point whose x is not below any x of the set: nothing happens
if the x is already present, otherwise the point goes to the end. -/
theorem setInsert_of_le (p : Point) :
    ∀ s : List Point, (∀ q ∈ s, q.x ≤ p.x) →
      setInsert p s = if s.any (fun q => decide (q.x = p.x)) then s else s ++ [p]
  | [], _ => rfl
  | a :: s, h => by
    have ha : a.x ≤ p.x := h a (List.mem_cons_self _ _)
    have ih := setInsert_of_le p s (fun q hq => h q (List.mem_cons_of_mem _ hq))
    have h1 : p.lt a = false := by simp [Point.lt, ha]
    rw [setInsert, h1]
    rcases lt_or_eq_of_le ha with hlt | heq
    · have h2 : a.lt p = true := by simp [Point.lt, hlt]
      have h3 : decide (a.x = p.x) = false := by simp [ne_of_lt hlt]
      rw [h2, ih, List.any_cons, h3]
      by_cases hany : s.any (fun q => decide (q.x = p.x)) = true
      · simp [hany]
      · simp [hany]
    · have h2 : a.lt p = false := by simp [Point.lt, heq]
      have h3 : decide (a.x = p.x) = true := by simp [heq]
      rw [h2, List.any_cons, h3]
      simp

theorem fold_eq_keepFirst (L : Point) :
    ∀ (ps acc : List Point), ps.Pairwise (fun a b => a.x ≤ b.x) →
      (∀ a ∈ acc, ∀ p ∈ ps, a.x ≤ p.x) →
      ps.foldl (fun s p => if p.ne L then setInsert p s else s) acc =
        acc ++ (keepFirstByX (ps.filter (fun p => p.ne L))).filter
          (fun q => !acc.any (fun a => decide (a.x = q.x)))
  | [], acc, _, _ => by simp [keepFirstByX]
  | p :: ps, acc, hps, hacc => by
    rw [List.pairwise_cons] at hps
    have hacc2 : ∀ a ∈ acc, ∀ q ∈ ps, a.x ≤ q.x :=
      fun a ha q hq => hacc a ha q (List.mem_cons_of_mem _ hq)
    rw [List.foldl_cons]
    by_cases hne : p.ne L = true
    · rw [if_pos hne, List.filter_cons, if_pos hne, keepFirstByX,
        setInsert_of_le p acc (fun a ha => hacc a ha p (List.mem_cons_self _ _))]
      by_cases hany : acc.any (fun a => decide (a.x = p.x)) = true
      · rw [if_pos hany, fold_eq_keepFirst L ps acc hps.2 hacc2, List.filter_cons,
          if_neg (by simp [hany]), List.filter_filter]
        congr 1
        apply List.filter_congr
        intro q _
        cases hq : acc.any (fun a => decide (a.x = q.x)) with
        | true => simp
        | false =>
          have : q.x ≠ p.x := by
            intro heq
            rw [heq, hany] at hq
            cases hq
          simp [this]
      · rw [if_neg hany, List.filter_cons, if_pos (by simp [hany]),
          fold_eq_keepFirst L ps (acc ++ [p]) hps.2
            (by
              intro a ha q hq
              rcases List.mem_append.1 ha with ha | ha
              · exact hacc2 a ha q hq
              · rw [List.mem_singleton.1 ha]
                exact hps.1 q hq),
          List.filter_filter, List.append_assoc, List.singleton_append]
        congr 2
        apply List.filter_congr
        intro q _
        rw [List.any_append]
        by_cases hqp : q.x = p.x
        · simp [hqp]
        · have : ¬ p.x = q.x := fun h => hqp h.symm
          simp [hqp, this]
    · rw [if_neg hne, List.filter_cons, if_neg hne]
      exact fold_eq_keepFirst L ps acc hps.2 hacc2

/-- On points of non-decreasing x the set keeps, of the points that differ from the
leading edge, the first one of every x-coordinate, in input order. -/
theorem upperSet_eq_keepFirst (L : Point) (ps : List Point)
    (hps : ps.Pairwise (fun a b => a.x ≤ b.x)) :
    upperSet L ps = keepFirstByX (ps.filter (fun p => p.ne L)) := by
  unfold upperSet
  rw [fold_eq_keepFirst L ps [] hps (by simp)]
  simp

theorem setInsert_pairwise (p : Point) :
    ∀ s : List Point, s.Pairwise (fun a b => a.x < b.x) →
      (setInsert p s).Pairwise (fun a b => a.x < b.x)
  | [], _ => by simp [setInsert]
  | a :: s, hs => by
    rw [List.pairwise_cons] at hs
    unfold setInsert
    by_cases h1 : p.lt a = true
    · rw [if_pos h1]
      have hpa : p.x < a.x := by simpa [Point.lt] using h1
      refine List.pairwise_cons.2 ⟨?_, List.pairwise_cons.2 hs⟩
      intro b hb
      rcases List.mem_cons.1 hb with rfl | hb
      · exact hpa
      · exact lt_trans hpa (hs.1 b hb)
    · rw [if_neg h1]
      by_cases h2 : a.lt p = true
      · rw [if_pos h2]
        have hap : a.x < p.x := by simpa [Point.lt] using h2
        refine List.pairwise_cons.2 ⟨?_, setInsert_pairwise p s hs.2⟩
        intro b hb
        rcases mem_setInsert hb with rfl | hb
        · exact hap
        · exact hs.1 b hb
      · rw [if_neg h2]
        exact List.pairwise_cons.2 hs

/-- Whatever went into it, the set is strictly increasing in x. -/
theorem upperSet_pairwise (L : Point) (ps : List Point) :
    (upperSet L ps).Pairwise (fun a b => a.x < b.x) := by
  induction ps using List.reverseRecOn with
  | nil => simp [upperSet]
  | append_singleton ps p ih =>
    rw [upperSet_snoc]
    split
    · exact setInsert_pairwise p _ ih
    · exact ih

theorem getD_mono_before_switch (points : List Point) :
    ∀ j, j < switchIndex points → ∀ i, i ≤ j →
      (points.getD i ⟨0, 0⟩).x ≤ (points.getD j ⟨0, 0⟩).x := by
  obtain ⟨_, hmono, _⟩ := switchIndex_spec points
  intro j
  induction j with
  | zero =>
    intro _ i hi
    have : i = 0 := by omega
    rw [this]
  | succ j ih =>
    intro hj i hi
    rcases Nat.lt_or_ge i (j + 1) with hlt | hge
    · have h1 := ih (by omega) i (by omega)
      have h2 := hmono (j + 1) (by omega) hj
      simp only [Nat.add_sub_cancel] at h2
      exact le_trans h1 (not_lt.1 h2)
    · have : i = j + 1 := by omega
      rw [this]

/-- Along the upper partition x never decreases. -/
theorem upperPartition_mono (points : List Point) :
    (upperPartition points).Pairwise (fun a b => a.x ≤ b.x) := by
  rw [List.pairwise_iff_getElem]
  intro i j hi hj hij
  unfold upperPartition at hi hj ⊢
  have hj2 := hj
  rw [List.length_take] at hi hj2
  have hjn : j < points.length := by omega
  have hin : i < points.length := by omega
  have := getD_mono_before_switch points j (by omega) i (by omega)
  rw [List.getD_eq_getElem _ _ hin, List.getD_eq_getElem _ _ hjn] at this
  simpa using this

theorem keepFirstByX_sublist : ∀ l : List Point, (keepFirstByX l).Sublist l
  | [] => List.Sublist.refl _
  | p :: ps => by
    rw [keepFirstByX]
    exact List.Sublist.cons₂ p ((List.filter_sublist _).trans (keepFirstByX_sublist ps))

theorem keepFirstByX_covers : ∀ (l : List Point) (p : Point), p ∈ l →
    ∃ u ∈ keepFirstByX l, u.x = p.x
  | [], p, h => by simp at h
  | a :: l, p, h => by
    rw [keepFirstByX]
    rcases List.mem_cons.1 h with rfl | h
    · exact ⟨p, List.mem_cons_self _ _, rfl⟩
    · obtain ⟨u, hu, hux⟩ := keepFirstByX_covers l p h
      by_cases hua : u.x = a.x
      · exact ⟨a, List.mem_cons_self _ _, by rw [← hua, hux]⟩
      · refine ⟨u, List.mem_cons_of_mem _ ?_, hux⟩
        rw [List.mem_filter]
        exact ⟨hu, by simpa using hua⟩

theorem ne_iff {p q : Point} : p.ne q = true ↔ p ≠ q := by
  cases p
  cases q
  simp only [Point.ne, Bool.or_eq_true, decide_eq_true_eq, ne_eq, Point.mk.injEq]
  tauto

/-! ### The leading edge and inputs that start by going down in x -/

theorem minElementFrom_le :
    ∀ (ps : List Point) (best : Point),
      (minElementFrom best ps).x ≤ best.x ∧ ∀ p ∈ ps, (minElementFrom best ps).x ≤ p.x
  | [], best => ⟨le_refl _, by simp⟩
  | p :: ps, best => by
    rw [minElementFrom]
    obtain ⟨h1, h2⟩ := minElementFrom_le ps (if p.x < best.x then p else best)
    have hb : (if p.x < best.x then p else best).x ≤ best.x ∧
        (if p.x < best.x then p else best).x ≤ p.x := by
      by_cases hlt : p.x < best.x
      · rw [if_pos hlt]
        exact ⟨le_of_lt hlt, le_refl _⟩
      · rw [if_neg hlt]
        exact ⟨le_refl _, not_lt.1 hlt⟩
    refine ⟨le_trans h1 hb.1, ?_⟩
    intro q hq
    rcases List.mem_cons.1 hq with rfl | hq
    · exact le_trans h1 hb.2
    · exact h2 q hq

/-- No point of the input has a smaller x than the leading edge. -/
theorem leadingEdge_le (points : List Point) (i : Nat) (hi : i < points.length) :
    (leadingEdge points).x ≤ (points.getD i ⟨0, 0⟩).x := by
  obtain ⟨h1, h2⟩ := minElementFrom_le (points.drop 1) (points.getD 0 ⟨0, 0⟩)
  cases i with
  | zero => exact h1
  | succ i =>
    apply h2
    have hlen : i < (points.drop 1).length := by rw [List.length_drop]; omega
    have e : points.getD (i + 1) ⟨0, 0⟩ = (points.drop 1)[i] := by
      rw [← List.getD_eq_getElem (points.drop 1) ⟨0, 0⟩ hlen, getD_drop, Nat.add_comm]
    rw [e]
    exact List.getElem_mem _

/-- When the second point has a smaller x than the first, the lower surface starts
at index 1 and the upper segment is the first point alone. -/
theorem upperSegment_of_descending_start (points : List Point) (h : 10 ≤ points.length)
    (hd : (points.getD 1 ⟨0, 0⟩).x < (points.getD 0 ⟨0, 0⟩).x) :
    switchIndex points = 1 ∧ upperSegment points = points.take 1 := by
  have hs : switchIndex points = 1 :=
    switchIndex_eq_of_first (le_refl _) (by omega) hd (fun i h1 h2 => by omega)
  have hrev : needsReversing points = false := by
    simp only [needsReversing, decide_eq_false_iff_not, gt_iff_lt, not_lt]
    exact le_of_lt hd
  have hL : (points.getD 0 ⟨0, 0⟩).ne (leadingEdge points) = true := by
    have := leadingEdge_le points 1 (by omega)
    rw [ne_iff]
    intro heq
    rw [← heq] at this
    exact absurd hd (not_lt.2 this)
  refine ⟨hs, ?_⟩
  unfold upperSegment upperPartition
  rw [hrev, hs]
  simp only [Bool.false_eq_true, if_false]
  have e : points.take 1 = [] ++ [points.getD 0 ⟨0, 0⟩] := by
    have := take_succ_getD points 0 (by omega)
    simpa using this
  rw [e, upperSet_snoc, if_pos hL]
  rfl

/-- An input of at least 10 points whose second point has a smaller x than the
first is returned as it is. -/
theorem processAirfoilPoints_of_descending_start (points : List Point)
    (h : 10 ≤ points.length)
    (hd : (points.getD 1 ⟨0, 0⟩).x < (points.getD 0 ⟨0, 0⟩).x) :
    processAirfoilPoints points = .ok points := by
  obtain ⟨hs, hU⟩ := upperSegment_of_descending_start points h hd
  rw [processAirfoilPoints_eq points h, hU, hs, List.take_append_drop]

/-- Along the upper segment x is strictly decreasing as soon as the first two input
points differ in x. -/
theorem upperSegment_decreasing_of_ne (points : List Point) (h : 10 ≤ points.length)
    (hne : (points.getD 0 ⟨0, 0⟩).x ≠ (points.getD 1 ⟨0, 0⟩).x) :
    (upperSegment points).Pairwise (fun a b => a.x > b.x) := by
  rcases lt_or_gt_of_ne hne with hup | hdown
  · have hrev : needsReversing points = true := by
      simp only [needsReversing, decide_eq_true_eq, gt_iff_lt]
      exact hup
    unfold upperSegment
    rw [hrev, if_pos rfl, List.pairwise_reverse]
    exact upperSet_pairwise _ _
  · rw [(upperSegment_of_descending_start points h hdown).2]
    have e : points.take 1 = [points.getD 0 ⟨0, 0⟩] := by
      have := take_succ_getD points 0 (by omega)
      simpa using this
    rw [e]
    exact List.pairwise_singleton _ _

/-! ### Claims about `processAirfoilPoints` -/

set_option maxRecDepth 100000 in
/-- C12, as stated, fails: in `twoSurfacesStep` the upper partition holds the two
distinct points `(2, 1)` and `(2, 2)`, neither of which is the leading edge
`(0, 0)`; the upper segment of the output holds `(2, 1)` only. -/
theorem upper_segment_drops_same_x_point :
    processAirfoilPoints twoSurfacesStep =
        .ok [⟨10, 0⟩, ⟨8, 1⟩, ⟨6, 2⟩, ⟨4, 2⟩, ⟨2, 1⟩,
             ⟨0, 0⟩, ⟨2, -1⟩, ⟨4, -2⟩, ⟨6, -2⟩, ⟨8, -1⟩, ⟨10, 0⟩] ∧
      leadingEdge twoSurfacesStep = ⟨0, 0⟩ ∧
      upperPartition twoSurfacesStep =
        [⟨0, 0⟩, ⟨2, 1⟩, ⟨2, 2⟩, ⟨4, 2⟩, ⟨6, 2⟩, ⟨8, 1⟩, ⟨10, 0⟩] ∧
      upperSegment twoSurfacesStep = [⟨10, 0⟩, ⟨8, 1⟩, ⟨6, 2⟩, ⟨4, 2⟩, ⟨2, 1⟩] ∧
      (⟨2, 2⟩ : Point) ∉ upperSegment twoSurfacesStep :=
  ⟨rfl, by decide, by decide, by decide, by decide⟩

/-- C12 (amended): for an input of at least 10 points, the upper segment of the
output is the list `U`, reversed when the second input point's x exceeds the
first's, where `U` holds one point for every x-coordinate found among the points
of the upper partition that differ from the leading edge: the first such point
of that x.  `U` is in the original relative order, its x-coordinates are
pairwise different (strictly increasing), it does not hold the leading edge,
and every point of the upper partition other than the leading edge has its
x-coordinate in `U`. -/
theorem upper_segment_first_per_x (points : List Point) (h : 10 ≤ points.length) :
    processAirfoilPoints points =
        .ok (upperSegment points ++ points.drop (switchIndex points)) ∧
      ∃ U, U = keepFirstByX
            ((upperPartition points).filter (fun p => p.ne (leadingEdge points))) ∧
        upperSegment points = (if needsReversing points then U.reverse else U) ∧
        U.Sublist (upperPartition points) ∧
        U.Pairwise (fun a b => a.x < b.x) ∧
        (∀ u ∈ U, u ≠ leadingEdge points) ∧
        (∀ p ∈ upperPartition points, p ≠ leadingEdge points → ∃ u ∈ U, u.x = p.x) := by
  have hU := upperSet_eq_keepFirst (leadingEdge points) (upperPartition points)
    (upperPartition_mono points)
  refine ⟨processAirfoilPoints_eq points h, _, rfl, ?_, ?_, ?_, ?_, ?_⟩
  · unfold upperSegment
    rw [hU]
  · exact (keepFirstByX_sublist _).trans (List.filter_sublist _)
  · rw [← hU]
    exact upperSet_pairwise _ _
  · intro u hu
    rw [← hU] at hu
    exact ne_iff.1 (mem_upperSet hu).2
  · intro p hp hne
    exact keepFirstByX_covers _ p (List.mem_filter.2 ⟨hp, ne_iff.2 hne⟩)

set_option maxRecDepth 100000 in
/-- C12 (amended) on the sample `twoSurfacesStep`. -/
theorem upper_segment_first_per_x_example :
    processAirfoilPoints twoSurfacesStep =
        .ok (upperSegment twoSurfacesStep ++ twoSurfacesStep.drop (switchIndex twoSurfacesStep)) ∧
      ∃ U, U = keepFirstByX
            ((upperPartition twoSurfacesStep).filter
              (fun p => p.ne (leadingEdge twoSurfacesStep))) ∧
        upperSegment twoSurfacesStep =
          (if needsReversing twoSurfacesStep then U.reverse else U) ∧
        U.Sublist (upperPartition twoSurfacesStep) ∧
        U.Pairwise (fun a b => a.x < b.x) ∧
        (∀ u ∈ U, u ≠ leadingEdge twoSurfacesStep) ∧
        (∀ p ∈ upperPartition twoSurfacesStep, p ≠ leadingEdge twoSurfacesStep →
          ∃ u ∈ U, u.x = p.x) :=
  upper_segment_first_per_x twoSurfacesStep (by decide)

set_option maxRecDepth 100000 in
/-- C13: evaluation of `processAirfoilPoints` on `twoSurfacesRepeatedStart`.  The
first two points have the same x, so no reversal takes place, and the upper
segment of the output runs from x = 1 up to x = 6: x increases along it. -/
theorem upper_segment_increasing_without_reversal :
    needsReversing twoSurfacesRepeatedStart = false ∧
      processAirfoilPoints twoSurfacesRepeatedStart =
        .ok [⟨1, 1⟩, ⟨2, 2⟩, ⟨3, 2⟩, ⟨4, 2⟩, ⟨5, 1⟩, ⟨6, 0⟩,
             ⟨0, 0⟩, ⟨1, -1⟩, ⟨2, -2⟩, ⟨3, -2⟩, ⟨4, -2⟩, ⟨5, -1⟩, ⟨6, 0⟩] ∧
      upperSegment twoSurfacesRepeatedStart =
        [⟨1, 1⟩, ⟨2, 2⟩, ⟨3, 2⟩, ⟨4, 2⟩, ⟨5, 1⟩, ⟨6, 0⟩] ∧
      ¬ (upperSegment twoSurfacesRepeatedStart).Pairwise (fun a b => a.x > b.x) :=
  ⟨by decide, rfl, by decide, by decide⟩

set_option maxRecDepth 100000 in
/-- C14: evaluation of `processAirfoilPoints` on `twoSurfacesSingleNose`.  The
leading edge `(0, 0)` is in the upper partition only and does not occur in the
output. -/
theorem leading_edge_lost :
    leadingEdge twoSurfacesSingleNose = ⟨0, 0⟩ ∧
      (⟨0, 0⟩ : Point) ∈ twoSurfacesSingleNose ∧
      processAirfoilPoints twoSurfacesSingleNose =
        .ok [⟨10, 0⟩, ⟨8, 1⟩, ⟨6, 2⟩, ⟨4, 2⟩, ⟨2, 1⟩,
             ⟨1, -1⟩, ⟨2, -1⟩, ⟨4, -2⟩, ⟨6, -2⟩, ⟨8, -1⟩, ⟨10, 0⟩] ∧
      List.count (⟨0, 0⟩ : Point)
        [⟨10, 0⟩, ⟨8, 1⟩, ⟨6, 2⟩, ⟨4, 2⟩, ⟨2, 1⟩,
         ⟨1, -1⟩, ⟨2, -1⟩, ⟨4, -2⟩, ⟨6, -2⟩, ⟨8, -1⟩, ⟨10, 0⟩] = 0 :=
  ⟨by decide, by decide, rfl, by decide⟩

theorem upperSegment_length (points : List Point) :
    (upperSegment points).length ≤
      ((upperPartition points).filter (fun p => p.ne (leadingEdge points))).length := by
  have hU := upperSet_eq_keepFirst (leadingEdge points) (upperPartition points)
    (upperPartition_mono points)
  have hlen : (upperSegment points).length =
      (upperSet (leadingEdge points) (upperPartition points)).length := by
    unfold upperSegment
    split
    · rw [List.length_reverse]
    · rfl
  rw [hlen, hU]
  exact (keepFirstByX_sublist _).length_le

set_option maxRecDepth 100000 in
/-- C15, as stated, fails: `twoSurfacesLowNose` has 12 points, its second x exceeds
the first, its x first decreases at index 6, and the output has 12 points.  The
point of smallest x, `(0, -1)`, is in the lower partition, so nothing is left
out of the upper one. -/
theorem twelve_points_kept :
    twoSurfacesLowNose.length = 12 ∧
      needsReversing twoSurfacesLowNose = true ∧
      firstDecrease twoSurfacesLowNose = some 6 ∧
      processAirfoilPoints twoSurfacesLowNose =
        .ok [⟨10, 0⟩, ⟨8, 1⟩, ⟨6, 2⟩, ⟨4, 2⟩, ⟨2, 1⟩, ⟨1, 0⟩,
             ⟨0, -1⟩, ⟨2, -1⟩, ⟨4, -2⟩, ⟨6, -2⟩, ⟨8, -1⟩, ⟨10, 0⟩] ∧
      ([⟨10, 0⟩, ⟨8, 1⟩, ⟨6, 2⟩, ⟨4, 2⟩, ⟨2, 1⟩, ⟨1, 0⟩,
        ⟨0, -1⟩, ⟨2, -1⟩, ⟨4, -2⟩, ⟨6, -2⟩, ⟨8, -1⟩, ⟨10, 0⟩] : List Point).length = 12 :=
  ⟨by decide, by decide, by decide, rfl, by decide⟩

/-- C15 (amended): for an input of exactly 12 points whose x first decreases at
index 6 (first 6 points upper, last 6 lower), the output has at most 12 points,
and at most 11 when the leading-edge point is one of the first 6 points.  The
direction of the first two points plays no role in the count. -/
theorem twelve_points_output_length (points : List Point) (hlen : points.length = 12)
    (hs : firstDecrease points = some 6) :
    ∃ out, processAirfoilPoints points = .ok out ∧ out.length ≤ 12 ∧
      (leadingEdge points ∈ points.take 6 → out.length ≤ 11) := by
  have hsw : switchIndex points = 6 := by
    unfold switchIndex
    rw [hs]
    rfl
  have hfil := upperSegment_length points
  rw [upperPartition, hsw] at hfil
  have htake : (points.take 6).length = 6 := by
    rw [List.length_take]
    omega
  have hdrop : (points.drop 6).length = 6 := by
    rw [List.length_drop]
    omega
  refine ⟨_, processAirfoilPoints_eq points (by omega), ?_, ?_⟩
  · have := List.length_filter_le (fun p => p.ne (leadingEdge points)) (points.take 6)
    rw [List.length_append, hsw, hdrop]
    omega
  · intro hmem
    have : ((points.take 6).filter (fun p => p.ne (leadingEdge points))).length <
        (points.take 6).length := by
      rw [List.length_filter_lt_length_iff_exists]
      refine ⟨leadingEdge points, hmem, ?_⟩
      intro hne
      exact ne_iff.1 hne rfl
    rw [List.length_append, hsw, hdrop]
    omega

set_option maxRecDepth 100000 in
/-- C15 (amended) on the sample `twoSurfaces`. -/
theorem twelve_points_output_length_example :
    ∃ out, processAirfoilPoints twoSurfaces = .ok out ∧ out.length ≤ 12 ∧
      (leadingEdge twoSurfaces ∈ twoSurfaces.take 6 → out.length ≤ 11) :=
  twelve_points_output_length twoSurfaces (by decide) (by decide)

/-- C16: a list of at least 10 points that is already in canonical order is
returned exactly as it is.  Canonical order starts at the trailing edge: x is
strictly decreasing from the first point down to the minimum-x point, of index
`m` (so the descending run has at least one step, `1 ≤ m`), then non-decreasing
to the end. -/
theorem canonical_input_unchanged (points : List Point) (h : 10 ≤ points.length) (m : Nat)
    (hm : 1 ≤ m) (_hmn : m < points.length)
    (hdown : ∀ i, i < m → (points.getD (i + 1) ⟨0, 0⟩).x < (points.getD i ⟨0, 0⟩).x)
    (_hup : ∀ i, m ≤ i → i + 1 < points.length →
      (points.getD i ⟨0, 0⟩).x ≤ (points.getD (i + 1) ⟨0, 0⟩).x) :
    processAirfoilPoints points = .ok points :=
  processAirfoilPoints_of_descending_start points h (hdown 0 (by omega))

/-- C16 on the sample `closedLoop`, whose minimum-x point has index 5. -/
theorem canonical_input_unchanged_example :
    processAirfoilPoints closedLoop = .ok closedLoop :=
  canonical_input_unchanged closedLoop (by decide) 5 (by decide) (by decide) (by decide)
    (by
      intro i h1 h2
      have h3 : i < 11 := by
        simp only [closedLoop, List.length_cons, List.length_nil] at h2
        omega
      interval_cases i <;> decide)

/-! ### Further claims about `buildParetoFront` -/

/-- C17: the front left by `buildParetoFront` does not depend on the content of the
front before the call: from any two previous fronts the same sweep gives the
same front, which is the one built from the empty front (and the call always
returns a front). -/
theorem front_independent_of_previous (front1 front2 : List (ℚ × ℚ))
    (alpha cL cD efficiency : List ℚ) :
    buildParetoFront front1 alpha cL cD efficiency =
        buildParetoFront front2 alpha cL cD efficiency ∧
      buildParetoFront front1 alpha cL cD efficiency =
        buildParetoFront [] alpha cL cD efficiency ∧
      ∃ front, buildParetoFront front1 alpha cL cD efficiency = some front :=
  ⟨rfl, rfl, _, buildParetoFront_eq _ _ _ _ _⟩

/-- C18: `buildParetoFront` is not a complete dominance filter.  In the sweep
`cL = [6, 4, 8]`, `cD = [3, 1, 2]`, `efficiency = [2, 4, 4]` all records are valid,
the cursor record `i = 0` is dominated first by `j = 2`, the record `k = 1` lies
between them, no other record dominates `k`, and the jump from `i` to `j` passes
over `k`: it is never a cursor position and its point is not in the front. -/
theorem jump_skips_undominated_record :
    ∃ (cL cD efficiency : List ℚ) (i k j : Nat),
      cD.length = cL.length ∧ efficiency.length = cL.length ∧
      (∀ r, r < cL.length → isInvalid cL cD r = false) ∧
      i ∈ visited cL cD efficiency ∧
      firstDominator cL efficiency i = some j ∧ i < k ∧ k < j ∧
      (∀ r, r < cL.length → r ≠ k → dominates cL efficiency k r = false) ∧
      k ∉ visited cL cD efficiency ∧
      k ∉ emitted cL cD efficiency ∧
      ∃ front, buildParetoFront [] [0, 1, 2] cL cD efficiency = some front ∧
        pointAt cL efficiency k ∉ front :=
  ⟨[6, 4, 8], [3, 1, 2], [2, 4, 4], 0, 1, 2, by decide, by decide, by decide, by decide,
    by decide, by decide, by decide, by decide, by decide, by decide,
    [(8, 4)], by decide, by decide⟩

/-! # Properties of `readCoordinatesFromFile` -/

theorem readLoop_append (lines : List (Option (ℚ × ℚ))) :
    ∀ acc : List Point,
      lines.foldl
          (fun points line =>
            match line with
            | some (x, y) => if x ≤ 1 ∧ y ≤ 1 then points ++ [⟨x, y⟩] else points
            | none => points)
          acc =
        acc ++ readCoordinatesFromFile lines := by
  induction lines using List.reverseRecOn with
  | nil => intro acc; simp [readCoordinatesFromFile]
  | append_singleton lines l ih =>
    intro acc
    unfold readCoordinatesFromFile at ih ⊢
    rw [List.foldl_append, List.foldl_append, ih acc]
    cases l with
    | none => simp
    | some xy =>
      obtain ⟨x, y⟩ := xy
      by_cases h : x ≤ 1 ∧ y ≤ 1
      · simp [h]
      · simp [h]

theorem readCoordinatesFromFile_append (l1 l2 : List (Option (ℚ × ℚ))) :
    readCoordinatesFromFile (l1 ++ l2) =
      readCoordinatesFromFile l1 ++ readCoordinatesFromFile l2 := by
  unfold readCoordinatesFromFile
  rw [List.foldl_append, readLoop_append]
  rfl

/-- C19, as stated, fails: the pair `(-2, 0)` has a value of magnitude greater than
1 and is kept. -/
theorem negative_large_pair_kept :
    readCoordinatesFromFile [some (-2, 0)] = [⟨-2, 0⟩] ∧
      ¬ (|(-2 : ℚ)| ≤ 1 ∧ |(0 : ℚ)| ≤ 1) := by
  refine ⟨by decide, ?_⟩
  norm_num

/-- C19 (amended): `readCoordinatesFromFile` keeps a parsed pair `(x, y)`, at its
place among the points read before and after it, if and only if `x ≤ 1` and
`y ≤ 1`; a line that does not parse contributes nothing. -/
theorem pair_kept_iff_both_at_most_one (before after : List (Option (ℚ × ℚ))) (x y : ℚ) :
    readCoordinatesFromFile (before ++ [some (x, y)] ++ after) =
        readCoordinatesFromFile before ++ (if x ≤ 1 ∧ y ≤ 1 then [⟨x, y⟩] else []) ++
          readCoordinatesFromFile after ∧
      readCoordinatesFromFile (before ++ [none] ++ after) =
        readCoordinatesFromFile before ++ readCoordinatesFromFile after := by
  rw [readCoordinatesFromFile_append, readCoordinatesFromFile_append,
    readCoordinatesFromFile_append, readCoordinatesFromFile_append]
  constructor
  · rfl
  · simp [readCoordinatesFromFile]

/-! ### Formatting twice -/

theorem two_le_switchIndex_of_rising_start (points : List Point) (h : 10 ≤ points.length)
    (hup : (points.getD 0 ⟨0, 0⟩).x < (points.getD 1 ⟨0, 0⟩).x) :
    2 ≤ switchIndex points := by
  obtain ⟨hle, _, hswitch⟩ := switchIndex_spec points
  by_contra hlt
  obtain ⟨h1, hdec⟩ := hswitch (by omega)
  have hs : switchIndex points = 1 := by omega
  rw [hs] at hdec
  exact absurd hdec (not_lt.2 (le_of_lt hup))

/-- Every point of the upper partition that differs from the leading edge has its
x-coordinate in the set. -/
theorem upperSet_covers (points : List Point) (p : Point) (hp : p ∈ upperPartition points)
    (hne : p.ne (leadingEdge points) = true) :
    ∃ u ∈ upperSet (leadingEdge points) (upperPartition points), u.x = p.x := by
  rw [upperSet_eq_keepFirst _ _ (upperPartition_mono points)]
  exact keepFirstByX_covers _ p (List.mem_filter.2 ⟨hp, hne⟩)

theorem getD_mem_upperPartition (points : List Point) (i : Nat) (hi : i < switchIndex points) :
    points.getD i ⟨0, 0⟩ ∈ upperPartition points := by
  obtain ⟨hle, _, _⟩ := switchIndex_spec points
  have hlen : i < (upperPartition points).length := by
    unfold upperPartition
    rw [List.length_take]
    omega
  have e : points.getD i ⟨0, 0⟩ = (upperPartition points)[i] := by
    unfold upperPartition
    rw [List.getElem_take, List.getD_eq_getElem _ _ (by omega)]
  rw [e]
  exact List.getElem_mem _

/-- Formatting the output of a first formatting changes nothing, provided the
first two input points differ in x and the first output still has 10 points. -/
theorem processAirfoilPoints_twice (points q : List Point) (h : 10 ≤ points.length)
    (hne : (points.getD 0 ⟨0, 0⟩).x ≠ (points.getD 1 ⟨0, 0⟩).x)
    (hq : processAirfoilPoints points = .ok q) (hq10 : 10 ≤ q.length) :
    processAirfoilPoints q = .ok q := by
  rcases lt_or_gt_of_ne hne with hup | hdown
  · -- rising start: the upper segment is the reversed set
    have hs2 := two_le_switchIndex_of_rising_start points h hup
    obtain ⟨hle, _, hswitch⟩ := switchIndex_spec points
    have hrev : needsReversing points = true := by
      simp only [needsReversing, decide_eq_true_eq, gt_iff_lt]
      exact hup
    rw [processAirfoilPoints_eq points h] at hq
    simp only [Except.ok.injEq] at hq
    have hseg : upperSegment points =
        (upperSet (leadingEdge points) (upperPartition points)).reverse := by
      unfold upperSegment
      rw [hrev]
      rfl
    have hsorted : (upperSegment points).Pairwise (fun a b => b.x < a.x) := by
      rw [hseg, List.pairwise_reverse]
      exact upperSet_pairwise _ _
    -- the last upper point is not the leading edge and its x is in the set
    have hL0 := leadingEdge_le points 0 (by omega)
    have hlast1 := getD_mono_before_switch points (switchIndex points - 1) (by omega) 1 (by omega)
    have hlastne : (points.getD (switchIndex points - 1) ⟨0, 0⟩).ne (leadingEdge points) = true := by
      rw [ne_iff]
      intro heq
      rw [heq] at hlast1
      exact absurd (lt_of_lt_of_le hup hlast1) (not_lt.2 hL0)
    obtain ⟨u, hu, hux⟩ := upperSet_covers points _
      (getD_mem_upperPartition points (switchIndex points - 1) (by omega)) hlastne
    have humem : u ∈ upperSegment points := by
      rw [hseg]
      exact List.mem_reverse.2 hu
    apply processAirfoilPoints_of_descending_start q hq10
    cases hR : upperSegment points with
    | nil => rw [hR] at humem; cases humem
    | cons a rest =>
      cases rest with
      | nil =>
        rw [hR] at humem hq
        have hua : u = a := by simpa using humem
        have hlt : switchIndex points < points.length := by
          by_contra hge
          have : points.drop (switchIndex points) = [] := List.drop_of_length_le (by omega)
          rw [this] at hq
          rw [← hq] at hq10
          simp at hq10
        obtain ⟨_, hdec⟩ := hswitch hlt
        have e0 : q.getD 0 ⟨0, 0⟩ = a := by rw [← hq]; rfl
        have e1 : q.getD 1 ⟨0, 0⟩ = points.getD (switchIndex points) ⟨0, 0⟩ := by
          rw [← hq]
          simp
        rw [e0, e1, ← hua, hux]
        exact hdec
      | cons b rest2 =>
        rw [hR] at hsorted hq
        have e0 : q.getD 0 ⟨0, 0⟩ = a := by rw [← hq]; rfl
        have e1 : q.getD 1 ⟨0, 0⟩ = b := by rw [← hq]; rfl
        rw [e0, e1]
        exact (List.pairwise_cons.1 hsorted).1 b (List.mem_cons_self _ _)
  · -- falling start: the input is returned as it is
    rw [processAirfoilPoints_of_descending_start points h hdown] at hq
    simp only [Except.ok.injEq] at hq
    rw [← hq]
    exact processAirfoilPoints_of_descending_start points h hdown

set_option maxRecDepth 100000 in
/-- C20: evaluation of `processAirfoilPoints` on `twoSurfacesRepeatedStart` and then
on its own output.  The first output has 13 points and its upper segment is
left in increasing x; the second run reverses that segment, so the output of
the first run is not a fixed point. -/
theorem second_formatting_changes_output :
    processAirfoilPoints twoSurfacesRepeatedStart =
        .ok [⟨1, 1⟩, ⟨2, 2⟩, ⟨3, 2⟩, ⟨4, 2⟩, ⟨5, 1⟩, ⟨6, 0⟩,
             ⟨0, 0⟩, ⟨1, -1⟩, ⟨2, -2⟩, ⟨3, -2⟩, ⟨4, -2⟩, ⟨5, -1⟩, ⟨6, 0⟩] ∧
      processAirfoilPoints
          [⟨1, 1⟩, ⟨2, 2⟩, ⟨3, 2⟩, ⟨4, 2⟩, ⟨5, 1⟩, ⟨6, 0⟩,
           ⟨0, 0⟩, ⟨1, -1⟩, ⟨2, -2⟩, ⟨3, -2⟩, ⟨4, -2⟩, ⟨5, -1⟩, ⟨6, 0⟩] =
        .ok [⟨6, 0⟩, ⟨5, 1⟩, ⟨4, 2⟩, ⟨3, 2⟩, ⟨2, 2⟩, ⟨1, 1⟩,
             ⟨0, 0⟩, ⟨1, -1⟩, ⟨2, -2⟩, ⟨3, -2⟩, ⟨4, -2⟩, ⟨5, -1⟩, ⟨6, 0⟩] ∧
      ([⟨6, 0⟩, ⟨5, 1⟩, ⟨4, 2⟩, ⟨3, 2⟩, ⟨2, 2⟩, ⟨1, 1⟩,
        ⟨0, 0⟩, ⟨1, -1⟩, ⟨2, -2⟩, ⟨3, -2⟩, ⟨4, -2⟩, ⟨5, -1⟩, ⟨6, 0⟩] : List Point) ≠
       [⟨1, 1⟩, ⟨2, 2⟩, ⟨3, 2⟩, ⟨4, 2⟩, ⟨5, 1⟩, ⟨6, 0⟩,
        ⟨0, 0⟩, ⟨1, -1⟩, ⟨2, -2⟩, ⟨3, -2⟩, ⟨4, -2⟩, ⟨5, -1⟩, ⟨6, 0⟩] :=
  ⟨rfl, rfl, by decide⟩

/-! ### The last record of the sweep -/

/-- From any cursor position in range, the cursor reaches the last index. -/
theorem last_mem_cursorTrace (cL cD efficiency : List ℚ) :
    ∀ (fuel i : Nat), i < cL.length → cL.length < fuel + i →
      cL.length - 1 ∈ cursorTrace cL cD efficiency fuel i := by
  intro fuel
  induction fuel with
  | zero => intro i h1 h2; omega
  | succ fuel ih =>
    intro i h1 h2
    rw [cursorTrace, if_pos h1]
    by_cases hlast : i = cL.length - 1
    · rw [← hlast]
      exact List.mem_cons_self _ _
    · apply List.mem_cons_of_mem
      cases hinv : isInvalid cL cD i with
      | true =>
        simp only [if_true]
        exact ih (i + 1) (by omega) (by omega)
      | false =>
        simp only [Bool.false_eq_true, if_false]
        cases hd : firstDominator cL efficiency i with
        | none => exact ih (i + 1) (by omega) (by omega)
        | some j =>
          have hj := firstDominator_some hd
          exact ih j hj.2.1 (by omega)

/-- A strictly increasing list ends with its largest element. -/
theorem getLast?_of_increasing :
    ∀ {l : List Nat} {m : Nat}, l.Pairwise (· < ·) → m ∈ l → (∀ k ∈ l, k ≤ m) →
      l.getLast? = some m
  | [], _, _, hm, _ => by simp at hm
  | [a], m, _, hm, _ => by
    rw [List.mem_singleton] at hm
    rw [hm]
    rfl
  | a :: b :: t, m, hs, hm, hmax => by
    rw [List.getLast?_cons_cons]
    rw [List.pairwise_cons] at hs
    apply getLast?_of_increasing hs.2
    · rcases List.mem_cons.1 hm with rfl | hm
      · have h1 := hs.1 b (List.mem_cons_self _ _)
        have h2 := hmax b (List.mem_cons_of_mem _ (List.mem_cons_self _ _))
        omega
      · exact hm
    · exact fun k hk => hmax k (List.mem_cons_of_mem _ hk)

theorem firstDominator_last (cL efficiency : List ℚ) :
    firstDominator cL efficiency (cL.length - 1) = none :=
  firstDominator_none.2 (fun j h1 h2 => by omega)

/-- C21: in a non-empty sweep whose last record is valid (not both `cL == 0` and
`cD == 0`), the cursor of `buildParetoFront` reaches the last index, which is its
last position and the last emitted index, and the last entry of the front is
the `(cL, efficiency)` of the last record; in particular the front is not
empty. -/
theorem last_valid_record_closes_front (paretoFront : List (ℚ × ℚ))
    (alpha cL cD efficiency : List ℚ) (hne : 0 < cL.length)
    (hvalid : ¬ (cL.getD (cL.length - 1) 0 = 0 ∧ cD.getD (cL.length - 1) 0 = 0)) :
    (visited cL cD efficiency).getLast? = some (cL.length - 1) ∧
      (emitted cL cD efficiency).getLast? = some (cL.length - 1) ∧
      ∃ front, buildParetoFront paretoFront alpha cL cD efficiency = some front ∧
        front.getLast? = some (pointAt cL efficiency (cL.length - 1)) ∧ front ≠ [] := by
  have hvis : cL.length - 1 ∈ visited cL cD efficiency :=
    last_mem_cursorTrace cL cD efficiency _ 0 hne (by omega)
  have hinv : isInvalid cL cD (cL.length - 1) = false := by
    cases h : isInvalid cL cD (cL.length - 1) with
    | false => rfl
    | true => exact absurd (isInvalid_iff.1 h) hvalid
  have hem : cL.length - 1 ∈ emitted cL cD efficiency := by
    rw [emitted, List.mem_filter]
    refine ⟨hvis, ?_⟩
    simp [emitsAt, hinv, firstDominator_last]
  have hmaxv : ∀ k ∈ visited cL cD efficiency, k ≤ cL.length - 1 := by
    intro k hk
    have := cursorTrace_bounds cL cD efficiency _ _ _ hk
    omega
  have hmaxe : ∀ k ∈ emitted cL cD efficiency, k ≤ cL.length - 1 := by
    intro k hk
    have := (mem_emitted hk).2.1
    omega
  have hlastv : (visited cL cD efficiency).getLast? = some (cL.length - 1) :=
    getLast?_of_increasing (cursorTrace_increasing cL cD efficiency _ _) hvis hmaxv
  have hlaste : (emitted cL cD efficiency).getLast? = some (cL.length - 1) :=
    getLast?_of_increasing ((cursorTrace_increasing cL cD efficiency _ _).filter _) hem hmaxe
  refine ⟨hlastv, hlaste, _, buildParetoFront_eq _ _ _ _ _, ?_, ?_⟩
  · rw [List.getLast?_map, hlaste]
    rfl
  · intro hnil
    rw [List.map_eq_nil_iff] at hnil
    rw [hnil] at hem
    cases hem

/-- C21 on the sweep `cL = [1, 5, 9]`, `cD = [1, 1, 3]`, `efficiency = [1, 5, 3]`. -/
theorem last_valid_record_closes_front_example :
    (visited [1, 5, 9] [1, 1, 3] [1, 5, 3]).getLast? = some 2 ∧
      (emitted [1, 5, 9] [1, 1, 3] [1, 5, 3]).getLast? = some 2 ∧
      ∃ front, buildParetoFront [] [0, 1, 2] [1, 5, 9] [1, 1, 3] [1, 5, 3] = some front ∧
        front.getLast? = some (pointAt [1, 5, 9] [1, 5, 3] 2) ∧ front ≠ [] :=
  last_valid_record_closes_front [] [0, 1, 2] [1, 5, 9] [1, 1, 3] [1, 5, 3]
    (by decide) (by decide)

end Airfoil
